import Mathlib

/-!
# Verification of the DSFB trust-adaptive residual-fusion estimator core

Shallow embedding of the estimator core of the `dsfb` repository:

* `HretObserver` (crates/dsfb-hret/src/lib.rs) — the hierarchical
  residual-envelope trust observer: construction-time validation,
  per-channel and per-group envelope EMA, bounded-affine trust map,
  hierarchical composition, weight normalisation with uniform fallback,
  and the gain-matrix correction.
* `calculate_trust_weights` / `DsfbObserver` (crates/dsfb/src/trust.rs,
  src/observer.rs, src/params.rs) — the scalar-kinematic variant with the
  softness-additive trust map.
* `ResidualEnvelope` / `TrustWeight` (crates/dsfb-ddmf/src/envelope.rs).

Numeric model: finite IEEE-754 doubles are modelled as exact rationals
(no rounding or overflow), and the non-finite values NaN, +inf and -inf
are modelled explicitly by the `F64` type, whose operations follow the IEEE
special-value rules (propagation, NaN-poisoned comparisons).  Code paths
that validate finiteness first and then compute are embedded as a
validation layer over `F64` followed by exact rational computation.
-/

/-- Model of an IEEE-754 double: an exact rational for finite values,
plus the non-finite values NaN, +inf and -inf. -/
inductive F64 where
  | num : ℚ → F64
  | nan : F64
  | inf : F64
  | ninf : F64
deriving DecidableEq

namespace F64

/-- `f64::is_finite`. -/
def isFinite : F64 → Bool
  | num _ => true
  | _ => false

/-- The rational value of a finite double (junk `0` on non-finite inputs;
only ever applied after a finiteness check). -/
def toRat : F64 → ℚ
  | num q => q
  | _ => 0

/-- IEEE negation. -/
def neg : F64 → F64
  | num q => num (-q)
  | nan => nan
  | inf => ninf
  | ninf => inf

/-- IEEE addition (finite arithmetic exact; NaN propagates; inf + -inf = NaN). -/
def add : F64 → F64 → F64
  | num a, num b => num (a + b)
  | nan, _ => nan
  | _, nan => nan
  | inf, ninf => nan
  | ninf, inf => nan
  | inf, _ => inf
  | _, inf => inf
  | ninf, _ => ninf
  | _, ninf => ninf

/-- IEEE subtraction. -/
def sub (a b : F64) : F64 := add a (neg b)

/-- IEEE multiplication (finite arithmetic exact; NaN propagates;
inf * 0 = NaN; signs of infinities as in IEEE-754). -/
def mul : F64 → F64 → F64
  | num a, num b => num (a * b)
  | nan, _ => nan
  | _, nan => nan
  | inf, num b => if b = 0 then nan else if 0 < b then inf else ninf
  | num a, inf => if a = 0 then nan else if 0 < a then inf else ninf
  | ninf, num b => if b = 0 then nan else if 0 < b then ninf else inf
  | num a, ninf => if a = 0 then nan else if 0 < a then ninf else inf
  | inf, inf => inf
  | inf, ninf => ninf
  | ninf, inf => ninf
  | ninf, ninf => inf

/-- IEEE division (finite/finite exact when the divisor is nonzero;
x/0 is ±inf for x ≠ 0 and NaN for 0/0; x/±inf = 0; inf/inf = NaN.
Signed zeros are not modelled). -/
def div : F64 → F64 → F64
  | nan, _ => nan
  | _, nan => nan
  | num a, num b =>
      if b = 0 then (if a = 0 then nan else if 0 < a then inf else ninf)
      else num (a / b)
  | num _, inf => num 0
  | num _, ninf => num 0
  | inf, num b => if 0 ≤ b then inf else ninf
  | ninf, num b => if 0 ≤ b then ninf else inf
  | inf, inf => nan
  | inf, ninf => nan
  | ninf, inf => nan
  | ninf, ninf => nan

/-- IEEE absolute value. -/
def fabs : F64 → F64
  | num q => num |q|
  | nan => nan
  | inf => inf
  | ninf => inf

/-- IEEE `>` comparison: any comparison involving NaN is false. -/
def gt : F64 → F64 → Bool
  | nan, _ => false
  | _, nan => false
  | num a, num b => decide (b < a)
  | inf, inf => false
  | inf, _ => true
  | _, inf => false
  | ninf, _ => false
  | _, ninf => true

end F64

/-- The sum of a list of doubles, folded left as Rust's `Iterator::sum`. -/
def F64.listSum (xs : List F64) : F64 := xs.foldl F64.add (F64.num 0)

/-! ## The hierarchical observer (crates/dsfb-hret/src/lib.rs)

The construction-time validators mirror the free functions at the bottom
of `lib.rs`; each returns `.ok ()` exactly when the corresponding Rust
validator returns `Ok(())` (the error messages are kept only as opaque
strings — nothing below depends on them). -/

/-- `WEIGHT_SUM_EPS` (lib.rs, line 7). -/
def WEIGHT_SUM_EPS : ℚ := 1 / 10 ^ 12

def validate_positive (field : String) (value : ℕ) : Except String Unit :=
  if value = 0 then .error (field ++ " must be > 0 (got 0)") else .ok ()

def validate_len (field : String) (expected got : ℕ) : Except String Unit :=
  if expected ≠ got then .error (field ++ " length mismatch") else .ok ()

def validate_forgetting_factor (field : String) (value : F64) : Except String Unit :=
  if value.isFinite ∧ 0 < value.toRat ∧ value.toRat < 1 then .ok ()
  else .error (field ++ " must be finite and in (0, 1)")

def validate_forgetting_factors (field : String) (values : List F64) : Except String Unit :=
  if ∀ v ∈ values, v.isFinite ∧ 0 < v.toRat ∧ v.toRat < 1 then .ok ()
  else .error (field ++ " must be finite and in (0, 1)")

def validate_non_negative_finite (field : String) (values : List F64) : Except String Unit :=
  if ∀ v ∈ values, v.isFinite ∧ 0 ≤ v.toRat then .ok ()
  else .error (field ++ " must be finite and >= 0")

def validate_finite (field : String) (values : List F64) : Except String Unit :=
  if ∀ v ∈ values, v.isFinite then .ok ()
  else .error (field ++ " must be finite")

/-- The `group_indices` buckets built by the constructor loop
(lib.rs, lines 70-78): pushing each channel index onto its group's vector
in increasing channel order yields, for group `j`, exactly the increasing
list of channels mapped to `j`. -/
def build_group_indices (g m : ℕ) (group_mapping : List ℕ) : List (List ℕ) :=
  (List.range g).map fun j => (List.range m).filter fun i => group_mapping.getD i g = j

/-- State of `HretObserver` (lib.rs, lines 31-45).  All stored scalars are
finite by construction, hence modelled as exact rationals. -/
@[ext]
structure HretObserver where
  m : ℕ
  g : ℕ
  group_mapping : List ℕ
  group_indices : List (List ℕ)
  rho : ℚ
  rho_g : List ℚ
  beta_k : List ℚ
  beta_g : List ℚ
  s_k : List ℚ
  s_g : List ℚ
  k_k : List (List ℚ)
deriving DecidableEq

/-- `HretObserver::new` (lib.rs, lines 49-117).  The
`Array2::from_shape_vec` failure branch is unreachable (the flat vector
has exactly `p * m` elements once every row passed `validate_len`) and is
therefore not modelled. -/
def HretObserver.new (m g : ℕ) (group_mapping : List ℕ) (rho : F64)
    (rho_g beta_k beta_g : List F64) (k_k : List (List F64)) :
    Except String HretObserver := do
  validate_positive "m" m
  validate_positive "g" g
  validate_len "group_mapping" m group_mapping.length
  validate_len "rho_g" g rho_g.length
  validate_len "beta_k" m beta_k.length
  validate_len "beta_g" g beta_g.length
  validate_forgetting_factor "rho" rho
  validate_forgetting_factors "rho_g" rho_g
  validate_non_negative_finite "beta_k" beta_k
  validate_non_negative_finite "beta_g" beta_g
  if ∀ i ∈ group_mapping, i < g then
    if k_k = [] then .error "k_k must contain at least one gain row"
    else
      if ∀ row ∈ k_k, row.length = m ∧ ∀ e ∈ row, e.isFinite then
        .ok { m := m, g := g, group_mapping := group_mapping,
              group_indices := build_group_indices g m group_mapping,
              rho := rho.toRat, rho_g := rho_g.map F64.toRat,
              beta_k := beta_k.map F64.toRat, beta_g := beta_g.map F64.toRat,
              s_k := List.replicate m 0, s_g := List.replicate g 0,
              k_k := k_k.map (List.map F64.toRat) }
      else .error "k_k rows must have length m and finite entries"
  else .error "group_mapping entry out of range"

/-- The bounded-affine trust map `1 / (1 + beta * s)` (lib.rs, eq. 9 and 12;
also the body of `TrustWeight::weight` in crates/dsfb-ddmf/src/envelope.rs). -/
def trustAffine (beta s : ℚ) : ℚ := 1 / (1 + beta * s)

/-- Channel-envelope update, `s_k = rho * s_k + (1 - rho) * |r|`
elementwise (lib.rs, line 126, eq. 8). -/
def hretChannelEnv (rho : ℚ) (s_k r : List ℚ) (m : ℕ) : List ℚ :=
  (List.range m).map fun i => rho * s_k.getD i 0 + (1 - rho) * |r.getD i 0|

/-- Group-envelope update (lib.rs, lines 129-138, eq. 11): a group with no
member channels is skipped (keeps its previous value); otherwise the EMA
advances with the mean absolute residual over the group's channels. -/
def hretGroupEnv (group_indices : List (List ℕ)) (rho_g s_g r : List ℚ)
    (g : ℕ) : List ℚ :=
  (List.range g).map fun j =>
    let channels := group_indices.getD j []
    if channels = [] then s_g.getD j 0
    else
      rho_g.getD j 0 * s_g.getD j 0 +
        (1 - rho_g.getD j 0) *
          ((channels.map fun i => |r.getD i 0|).sum / (channels.length : ℚ))

/-- Hierarchical composition (lib.rs, lines 140-149, eq. 9, 12, 14-15):
`hat_w_k = (1/(1 + beta_k s_k)) * (1/(1 + beta_g[group(k)] s_g[group(k)]))`. -/
def hretHatWeights (beta_k beta_g : List ℚ) (group_mapping : List ℕ)
    (s_k s_g : List ℚ) (m : ℕ) : List ℚ :=
  (List.range m).map fun i =>
    trustAffine (beta_k.getD i 0) (s_k.getD i 0) *
      trustAffine (beta_g.getD (group_mapping.getD i 0) 0)
        (s_g.getD (group_mapping.getD i 0) 0)

/-- Weight normalisation (lib.rs, lines 150-155): divide by the score sum
when it exceeds `WEIGHT_SUM_EPS`, else fall back to the uniform
distribution over the `m` channels. -/
def normalizeWeights (hat : List ℚ) (m : ℕ) : List ℚ :=
  if WEIGHT_SUM_EPS < hat.sum then hat.map (· / hat.sum)
  else List.replicate m ((1 : ℚ) / (m : ℚ))

/-- Fusion correction `Delta_x = K * (tilde_w ⊙ r)` (lib.rs, lines 157-159,
eq. 19). -/
def hretCorrection (k_k : List (List ℚ)) (tilde r : List ℚ) (m : ℕ) : List ℚ :=
  k_k.map fun row =>
    ((List.range m).map fun i => row.getD i 0 * (tilde.getD i 0 * r.getD i 0)).sum

/-- The tuple returned by a successful `update`:
`(delta_x, tilde_w_k, s_k, s_g)`. -/
def HretUpdate : Type := List ℚ × List ℚ × List ℚ × List ℚ

/-- `HretObserver::update` (lib.rs, lines 119-170).  The Rust method takes
`&mut self` and returns `Result`; it is embedded in state-passing style,
returning the result together with the post-call observer (on a rejected
call the observer is returned exactly as it was, matching the early
returns that precede every mutation in the source). -/
def HretObserver.update (h : HretObserver) (residuals : List F64) :
    Except String HretUpdate × HretObserver :=
  if h.m ≠ residuals.length then
    (.error "residuals length mismatch", h)
  else if ¬ ∀ v ∈ residuals, v.isFinite then
    (.error "residuals must be finite", h)
  else
    let r := residuals.map F64.toRat
    let s_k' := hretChannelEnv h.rho h.s_k r h.m
    let s_g' := hretGroupEnv h.group_indices h.rho_g h.s_g r h.g
    let hat := hretHatWeights h.beta_k h.beta_g h.group_mapping s_k' s_g' h.m
    let tilde := normalizeWeights hat h.m
    let delta := hretCorrection h.k_k tilde r h.m
    (.ok (delta, tilde, s_k', s_g'), { h with s_k := s_k', s_g := s_g' })

/-- `HretObserver::reset_envelopes` (lib.rs, lines 172-175): `fill(0.0)`
on both envelope vectors. -/
def HretObserver.reset_envelopes (h : HretObserver) : HretObserver :=
  { h with s_k := List.replicate h.s_k.length 0,
           s_g := List.replicate h.s_g.length 0 }

/-- A sequence of `update` calls against one observer instance, collecting
each call's result (rejected calls leave the state untouched and are
recorded as errors, exactly as a caller looping over `update` would see). -/
def HretObserver.runSeq (h : HretObserver) (inputs : List (List F64)) :
    List (Except String HretUpdate) × HretObserver :=
  match inputs with
  | [] => ([], h)
  | r :: rest =>
      let step := h.update r
      let tail := (step.2).runSeq rest
      (step.1 :: tail.1, tail.2)

/-- Configuration well-formedness: what `new` guarantees about the fields
an update reads. -/
def HretObserver.WF (h : HretObserver) : Prop :=
  0 < h.m ∧ 0 < h.g ∧
  h.group_mapping.length = h.m ∧ (∀ i ∈ h.group_mapping, i < h.g) ∧
  h.rho_g.length = h.g ∧ h.beta_k.length = h.m ∧ h.beta_g.length = h.g ∧
  h.s_k.length = h.m ∧ h.s_g.length = h.g ∧
  0 < h.rho ∧ h.rho < 1 ∧ (∀ x ∈ h.rho_g, 0 < x ∧ x < 1) ∧
  (∀ x ∈ h.beta_k, 0 ≤ x) ∧ (∀ x ∈ h.beta_g, 0 ≤ x)

/-- Both envelope vectors are entrywise non-negative. -/
def HretObserver.EnvNonneg (h : HretObserver) : Prop :=
  (∀ x ∈ h.s_k, 0 ≤ x) ∧ (∀ x ∈ h.s_g, 0 ≤ x)

/-! ## The scalar-kinematic variant
(crates/dsfb/src/trust.rs, src/params.rs; src/observer.rs, src/state.rs)

`calculate_trust_weights` performs **no** validation in the source: it is
embedded directly over `F64`, so non-finite inputs propagate through the
arithmetic exactly as they would through IEEE doubles.  (Indexing
`ema_residuals[k]` for `k < residuals.len()` presumes, as the Rust code
does, that the caller passes an EMA slice at least as long as the
residual slice; out-of-range accesses are modelled as NaN junk.) -/

/-- The EMA update loop body of `calculate_trust_weights`
(trust.rs, line 43): `s_k = rho*s_k + (1-rho)*|r_k|`. -/
def ctwEma (residuals ema_residuals : List F64) (rho : F64) : List F64 :=
  (List.range residuals.length).map fun k =>
    F64.add (F64.mul rho (ema_residuals.getD k F64.nan))
      (F64.mul (F64.sub (F64.num 1) rho)
        (F64.fabs (residuals.getD k F64.nan)))

/-- The raw-weight loop body (trust.rs, line 46):
`wtilde_k = 1 / (sigma0 + s_k)`. -/
def ctwRaw (ema : List F64) (sigma0 : F64) : List F64 :=
  ema.map fun s => F64.div (F64.num 1) (F64.add sigma0 s)

/-- `calculate_trust_weights` (trust.rs, lines 31-64).  The Rust function
mutates `ema_residuals` in place and returns the weights; it is embedded
as returning `(weights, updated_ema)`.  Note the normalisation threshold
here is `sum > 0.0` — not the hierarchical observer's `WEIGHT_SUM_EPS`. -/
def calculate_trust_weights (residuals ema_residuals : List F64)
    (rho sigma0 : F64) : List F64 × List F64 :=
  let n := residuals.length
  let ema := ctwEma residuals ema_residuals rho
  let raw := ctwRaw ema sigma0
  let sum := F64.listSum raw
  let weights :=
    if F64.gt sum (F64.num 0) then raw.map fun w => F64.div w sum
    else List.replicate n (F64.div (F64.num 1) (F64.num (n : ℚ)))
  (weights, ema)

/-- Rational shadow of the EMA loop, for finite inputs. -/
def ctwEmaQ (rs es : List ℚ) (rho : ℚ) : List ℚ :=
  (List.range rs.length).map fun k =>
    rho * es.getD k 0 + (1 - rho) * |rs.getD k 0|

/-- Rational shadow of the full weight computation, for finite inputs. -/
def ctwWeightsQ (rs es : List ℚ) (rho sigma0 : ℚ) : List ℚ :=
  let raw := (ctwEmaQ rs es rho).map fun s => 1 / (sigma0 + s)
  if 0 < raw.sum then raw.map (· / raw.sum)
  else List.replicate rs.length ((1 : ℚ) / (rs.length : ℚ))

/-! ### The scalar observer (src/observer.rs, src/params.rs, src/state.rs) -/

/-- `TrustStats` (trust.rs, lines 5-22). -/
structure TrustStats where
  residual_ema : F64
  weight : F64
deriving DecidableEq

/-- `TrustStats::new` (trust.rs, lines 16-21): EMA `0.0`, weight `1.0`. -/
def TrustStats.new : TrustStats := ⟨F64.num 0, F64.num 1⟩

/-- `DsfbParams` (params.rs).  `DsfbParams::new` stores the five gains
verbatim — the source performs no validation whatsoever here. -/
structure DsfbParams where
  k_phi : F64
  k_omega : F64
  k_alpha : F64
  rho : F64
  sigma0 : F64
deriving DecidableEq

/-- `DsfbParams::new` (params.rs, lines 22-30). -/
def DsfbParams.new (k_phi k_omega k_alpha rho sigma0 : F64) : DsfbParams :=
  ⟨k_phi, k_omega, k_alpha, rho, sigma0⟩

/-- `DsfbState` (state.rs). -/
structure DsfbState where
  phi : F64
  omega : F64
  alpha : F64
deriving DecidableEq

/-- `DsfbState::zero`. -/
def DsfbState.zero : DsfbState := ⟨F64.num 0, F64.num 0, F64.num 0⟩

/-- `DsfbObserver` (observer.rs, lines 10-21). -/
structure DsfbObserver where
  params : DsfbParams
  channels : ℕ
  state : DsfbState
  ema_residuals : List F64
  trust_stats : List TrustStats
deriving DecidableEq

/-- `DsfbObserver::new` (observer.rs, lines 25-33): always succeeds, with
zero state, zero EMAs and unit initial trust weights. -/
def DsfbObserver.new (params : DsfbParams) (channels : ℕ) : DsfbObserver :=
  ⟨params, channels, DsfbState.zero,
   List.replicate channels (F64.num 0),
   List.replicate channels TrustStats.new⟩

/-- `DsfbObserver::step` (observer.rs, lines 48-90).  The only check is
the `assert_eq!` on the measurement count (modelled as the error case —
a Rust panic); finiteness of the measurements is **not** checked, and
the EMA/trust state is mutated unconditionally afterwards. -/
def DsfbObserver.step (o : DsfbObserver) (measurements : List F64)
    (dt : F64) : Except String (DsfbState × DsfbObserver) :=
  if measurements.length ≠ o.channels then
    .error "Measurement count mismatch"
  else
    let phi_pred := F64.add o.state.phi (F64.mul o.state.omega dt)
    let omega_pred := F64.add o.state.omega (F64.mul o.state.alpha dt)
    let alpha_pred := o.state.alpha
    let h_pred := phi_pred
    let residuals := measurements.map fun y => F64.sub y h_pred
    let ctw := calculate_trust_weights residuals o.ema_residuals
      o.params.rho o.params.sigma0
    let weights := ctw.1
    let ema := ctw.2
    let stats := (List.range o.channels).map fun k =>
      TrustStats.mk (ema.getD k F64.nan) (weights.getD k F64.nan)
    let aggregate := F64.listSum ((List.range o.channels).map fun k =>
      F64.mul (weights.getD k F64.nan) (residuals.getD k F64.nan))
    let phi := F64.add phi_pred (F64.mul o.params.k_phi aggregate)
    let omega := F64.add omega_pred (F64.mul o.params.k_omega aggregate)
    let alpha := F64.add alpha_pred (F64.mul o.params.k_alpha aggregate)
    let state := DsfbState.mk phi omega alpha
    .ok (state, { o with state := state, ema_residuals := ema,
                         trust_stats := stats })

/-- `DsfbObserver::trust_weight` (observer.rs, lines 103-105). -/
def DsfbObserver.trust_weight (o : DsfbObserver) (channel : ℕ) : F64 :=
  (o.trust_stats.getD channel ⟨F64.nan, F64.nan⟩).weight

/-- `DsfbObserver::ema_residual` (observer.rs, lines 108-110). -/
def DsfbObserver.ema_residual (o : DsfbObserver) (channel : ℕ) : F64 :=
  (o.trust_stats.getD channel ⟨F64.nan, F64.nan⟩).residual_ema

/-! ### The single-channel envelope (crates/dsfb-ddmf/src/envelope.rs) -/

/-- `ResidualEnvelope` (envelope.rs, lines 4-8). -/
structure ResidualEnvelope where
  s : ℚ
  rho : ℚ
deriving DecidableEq

/-- `ResidualEnvelope::new` (envelope.rs, lines 11-18); the two `assert!`
calls are modelled as the error case. -/
def ResidualEnvelope.new (rho s0 : F64) : Except String ResidualEnvelope :=
  if ¬ (rho.isFinite ∧ 0 < rho.toRat ∧ rho.toRat < 1) then
    .error "rho must be in (0, 1)"
  else if ¬ (s0.isFinite ∧ 0 ≤ s0.toRat) then
    .error "s0 must be finite and >= 0"
  else .ok ⟨s0.toRat, rho.toRat⟩

/-- `ResidualEnvelope::update` (envelope.rs, lines 20-24): asserts the
residual is finite, then advances `s = rho*s + (1-rho)*|residual|`,
returning the new envelope value. -/
def ResidualEnvelope.update (env : ResidualEnvelope) (residual : F64) :
    Except String (ℚ × ResidualEnvelope) :=
  if ¬ residual.isFinite then .error "residual must be finite"
  else
    let s := env.rho * env.s + (1 - env.rho) * |residual.toRat|
    .ok (s, ⟨s, env.rho⟩)

/-! ## Envelope invariant machinery -/

/-- The supremum of the absolute (finite) values appearing anywhere in a
sequence of residual vectors, with floor `0`. -/
def absSup (inputs : List (List F64)) : ℚ :=
  ((inputs.flatten).map fun e => |e.toRat|).foldr max 0

/-! ## Concrete scenarios used by witnesses and literal checks -/

/-- The `make_observer` configuration of the hret test suite
(tests.rs, lines 3-15): `m = g = 2`, one channel per group,
`rho = rho_g = 0.5`, unit sensitivities, `K = [[1, 1]]`. -/
def obsA : HretObserver :=
  ⟨2, 2, [0, 1], [[0], [1]], 1/2, [1/2, 1/2], [1, 1], [1, 1],
   [0, 0], [0, 0], [[1, 1]]⟩

/-- `obsA` after one accepted update with residuals `[1, 1]`. -/
def obsA' : HretObserver :=
  ⟨2, 2, [0, 1], [[0], [1]], 1/2, [1/2, 1/2], [1, 1], [1, 1],
   [1/2, 1/2], [1/2, 1/2], [[1, 1]]⟩

/-- The underflow configuration of §8 of the spec: two channels in two
distinct groups, `beta_k = beta_g = 1e308`. -/
def obsB : HretObserver :=
  ⟨2, 2, [0, 1], [[0], [1]], 1/2, [1/2, 1/2], [10^308, 10^308],
   [10^308, 10^308], [0, 0], [0, 0], [[1, 1]]⟩

/-- `obsB` after one accepted update with residuals `[1e308, 1e308]`. -/
def obsB' : HretObserver :=
  ⟨2, 2, [0, 1], [[0], [1]], 1/2, [1/2, 1/2], [10^308, 10^308],
   [10^308, 10^308], [5 * 10^307, 5 * 10^307], [5 * 10^307, 5 * 10^307],
   [[1, 1]]⟩

/-- The §4.3 WeightNormalizer exactly as claim C3 states it, with the
claim's example constant `ε = 1e-12`.  Modelled from the spec's words,
for comparison against the code's two normalisers. -/
def specNormalizeWeights (scores : List ℚ) : List ℚ :=
  if 1/10^12 < scores.sum then scores.map (· / scores.sum)
  else List.replicate scores.length ((1 : ℚ) / (scores.length : ℚ))

/-! ## Theorems -/

@[simp] theorem F64.add_num (a b : ℚ) :
    F64.add (F64.num a) (F64.num b) = F64.num (a + b) := rfl

@[simp] theorem F64.mul_num (a b : ℚ) :
    F64.mul (F64.num a) (F64.num b) = F64.num (a * b) := rfl

@[simp] theorem F64.sub_num (a b : ℚ) :
    F64.sub (F64.num a) (F64.num b) = F64.num (a - b) := by
  simp [F64.sub, F64.add, F64.neg, sub_eq_add_neg]

@[simp] theorem F64.fabs_num (a : ℚ) : F64.fabs (F64.num a) = F64.num |a| := rfl

@[simp] theorem F64.toRat_num (a : ℚ) : F64.toRat (F64.num a) = a := rfl

@[simp] theorem F64.isFinite_num (a : ℚ) : F64.isFinite (F64.num a) = true := rfl

theorem F64.div_num (a b : ℚ) (hb : b ≠ 0) :
    F64.div (F64.num a) (F64.num b) = F64.num (a / b) := by
  simp [F64.div, hb]

@[simp] theorem F64.gt_num (a b : ℚ) :
    F64.gt (F64.num a) (F64.num b) = decide (b < a) := rfl

theorem F64.listSum_num (xs : List ℚ) :
    F64.listSum (xs.map F64.num) = F64.num xs.sum := by
  suffices h : ∀ (a : ℚ), (xs.map F64.num).foldl F64.add (F64.num a) = F64.num (a + xs.sum) by
    simpa [F64.listSum] using h 0
  induction xs with
  | nil => intro a; simp
  | cons x xs ih =>
      intro a
      simp [List.foldl_cons, ih (a + x), add_assoc]

/-! ## Generic list helpers -/

/-- `getD` through a `map`, at an in-range index. -/
theorem getD_map_of_lt {α β : Type} (f : α → β) (l : List α) (k : ℕ)
    (hk : k < l.length) (d : β) (d' : α) :
    (l.map f).getD k d = f (l.getD k d') := by
  rw [List.getD_eq_getElem?_getD, List.getD_eq_getElem?_getD,
    List.getElem?_map, List.getElem?_eq_getElem hk]
  rfl

/-- `getD` through `(List.range n).map f`, at an in-range index. -/
theorem getD_range_map {α : Type} (f : ℕ → α) (n k : ℕ) (hk : k < n) (d : α) :
    ((List.range n).map f).getD k d = f k := by
  rw [getD_map_of_lt f (List.range n) k (by simpa using hk) d 0]
  congr 1
  rw [List.getD_eq_getElem?_getD, List.getElem?_range hk]
  rfl

/-- An in-range `getD` is a member of the list. -/
theorem getD_mem_of_lt {α : Type} (l : List α) (k : ℕ) (hk : k < l.length) (d : α) :
    l.getD k d ∈ l := by
  rw [List.getD_eq_getElem?_getD, List.getElem?_eq_getElem hk]
  exact List.getElem_mem hk

/-- Dividing every element of a list distributes over the sum. -/
theorem list_sum_map_div (l : List ℚ) (c : ℚ) :
    (l.map (· / c)).sum = l.sum / c := by
  induction l with
  | nil => simp
  | cons x xs ih => simp [ih, add_div]

/-- The base is below a `foldr max`. -/
theorem base_le_foldr_max (l : List ℚ) (b : ℚ) : b ≤ l.foldr max b := by
  induction l with
  | nil => simp
  | cons x xs ih => exact le_trans ih (le_max_right x _)

/-- Every member is below a `foldr max`. -/
theorem mem_le_foldr_max (l : List ℚ) (b : ℚ) (x : ℚ) (hx : x ∈ l) :
    x ≤ l.foldr max b := by
  induction l with
  | nil => cases hx
  | cons y ys ih =>
      rcases List.mem_cons.mp hx with h | h
      · subst h; exact le_max_left _ _
      · exact le_trans (ih h) (le_max_right _ _)

/-! ## Basic facts about construction and update -/

theorem except_bind_ok {ε α β : Type} {e : Except ε α} {f : α → Except ε β} {b : β}
    (h : (e >>= f) = .ok b) : ∃ a, e = .ok a ∧ f a = .ok b := by
  cases e with
  | error e => simp [Bind.bind, Except.bind] at h
  | ok a => exact ⟨a, rfl, by simpa [Bind.bind, Except.bind] using h⟩

theorem validate_positive_ok {f : String} {v : ℕ} {u : Unit}
    (h : validate_positive f v = .ok u) : 0 < v := by
  by_cases hv : v = 0 <;> simp [validate_positive, hv] at h ⊢
  omega

theorem validate_len_ok {f : String} {a b : ℕ} {u : Unit}
    (h : validate_len f a b = .ok u) : a = b := by
  by_cases hv : a = b <;> simp [validate_len, hv] at h ⊢

theorem validate_forgetting_factor_ok {f : String} {v : F64} {u : Unit}
    (h : validate_forgetting_factor f v = .ok u) :
    v.isFinite ∧ 0 < v.toRat ∧ v.toRat < 1 := by
  by_cases hv : v.isFinite ∧ 0 < v.toRat ∧ v.toRat < 1
  · exact hv
  · simp [validate_forgetting_factor, hv] at h

theorem validate_forgetting_factors_ok {f : String} {vs : List F64} {u : Unit}
    (h : validate_forgetting_factors f vs = .ok u) :
    ∀ v ∈ vs, v.isFinite ∧ 0 < v.toRat ∧ v.toRat < 1 := by
  by_cases hv : ∀ v ∈ vs, v.isFinite ∧ 0 < v.toRat ∧ v.toRat < 1
  · exact hv
  · simp only [validate_forgetting_factors, if_neg hv] at h
    cases h

theorem validate_non_negative_finite_ok {f : String} {vs : List F64} {u : Unit}
    (h : validate_non_negative_finite f vs = .ok u) :
    ∀ v ∈ vs, v.isFinite ∧ 0 ≤ v.toRat := by
  by_cases hv : ∀ v ∈ vs, v.isFinite ∧ 0 ≤ v.toRat
  · exact hv
  · simp only [validate_non_negative_finite, if_neg hv] at h
    cases h

/-- Everything a successful construction guarantees: all validations
passed, and the observer is exactly the record built on the `Ok` path. -/
theorem HretObserver.new_ok {m g : ℕ} {group_mapping : List ℕ} {rho : F64}
    {rho_g beta_k beta_g : List F64} {k_k : List (List F64)} {h : HretObserver}
    (hnew : HretObserver.new m g group_mapping rho rho_g beta_k beta_g k_k = .ok h) :
    0 < m ∧ 0 < g ∧ group_mapping.length = m ∧ rho_g.length = g ∧
    beta_k.length = m ∧ beta_g.length = g ∧
    (rho.isFinite ∧ 0 < rho.toRat ∧ rho.toRat < 1) ∧
    (∀ v ∈ rho_g, v.isFinite ∧ 0 < v.toRat ∧ v.toRat < 1) ∧
    (∀ v ∈ beta_k, v.isFinite ∧ 0 ≤ v.toRat) ∧
    (∀ v ∈ beta_g, v.isFinite ∧ 0 ≤ v.toRat) ∧
    (∀ i ∈ group_mapping, i < g) ∧ k_k ≠ [] ∧
    (∀ row ∈ k_k, row.length = m ∧ ∀ e ∈ row, e.isFinite) ∧
    h = { m := m, g := g, group_mapping := group_mapping,
          group_indices := build_group_indices g m group_mapping,
          rho := rho.toRat, rho_g := rho_g.map F64.toRat,
          beta_k := beta_k.map F64.toRat, beta_g := beta_g.map F64.toRat,
          s_k := List.replicate m 0, s_g := List.replicate g 0,
          k_k := k_k.map (List.map F64.toRat) } := by
  rw [HretObserver.new] at hnew
  obtain ⟨_, h1, hnew⟩ := except_bind_ok hnew
  obtain ⟨_, h2, hnew⟩ := except_bind_ok hnew
  obtain ⟨_, h3, hnew⟩ := except_bind_ok hnew
  obtain ⟨_, h4, hnew⟩ := except_bind_ok hnew
  obtain ⟨_, h5, hnew⟩ := except_bind_ok hnew
  obtain ⟨_, h6, hnew⟩ := except_bind_ok hnew
  obtain ⟨_, h7, hnew⟩ := except_bind_ok hnew
  obtain ⟨_, h8, hnew⟩ := except_bind_ok hnew
  obtain ⟨_, h9, hnew⟩ := except_bind_ok hnew
  obtain ⟨_, h10, hnew⟩ := except_bind_ok hnew
  by_cases hmap : ∀ i ∈ group_mapping, i < g
  swap
  · simp only [if_neg hmap] at hnew; cases hnew
  by_cases hk0 : k_k = []
  · simp only [if_pos hmap, if_pos hk0] at hnew; cases hnew
  by_cases hrows : ∀ row ∈ k_k, row.length = m ∧ ∀ e ∈ row, e.isFinite
  swap
  · simp only [if_pos hmap, if_neg hk0, if_neg hrows] at hnew; cases hnew
  simp only [if_pos hmap, if_neg hk0, if_pos hrows, Except.ok.injEq] at hnew
  exact ⟨validate_positive_ok h1, validate_positive_ok h2,
    (validate_len_ok h3).symm, (validate_len_ok h4).symm,
    (validate_len_ok h5).symm, (validate_len_ok h6).symm,
    validate_forgetting_factor_ok h7, validate_forgetting_factors_ok h8,
    validate_non_negative_finite_ok h9, validate_non_negative_finite_ok h10,
    hmap, hk0, hrows, hnew.symm⟩

/-- `update` never touches any configuration field (it only rewrites the
two envelope vectors, and only on the accepted path). -/
theorem HretObserver.update_config (h : HretObserver) (r : List F64) :
    ((h.update r).2).m = h.m ∧ ((h.update r).2).g = h.g ∧
    ((h.update r).2).group_mapping = h.group_mapping ∧
    ((h.update r).2).group_indices = h.group_indices ∧
    ((h.update r).2).rho = h.rho ∧ ((h.update r).2).rho_g = h.rho_g ∧
    ((h.update r).2).beta_k = h.beta_k ∧ ((h.update r).2).beta_g = h.beta_g ∧
    ((h.update r).2).k_k = h.k_k := by
  rw [HretObserver.update]
  split
  · exact ⟨rfl, rfl, rfl, rfl, rfl, rfl, rfl, rfl, rfl⟩
  · split
    · exact ⟨rfl, rfl, rfl, rfl, rfl, rfl, rfl, rfl, rfl⟩
    · exact ⟨rfl, rfl, rfl, rfl, rfl, rfl, rfl, rfl, rfl⟩

/-- Inversion of a successful `update` call: the input must have passed
both validations, and every output component is the corresponding
pipeline stage. -/
theorem HretObserver.update_ok_inv {h h' : HretObserver} {residuals : List F64}
    {out : HretUpdate} (hu : h.update residuals = (.ok out, h')) :
    residuals.length = h.m ∧ (∀ v ∈ residuals, v.isFinite) ∧
    out = (hretCorrection h.k_k
             (normalizeWeights
               (hretHatWeights h.beta_k h.beta_g h.group_mapping
                 (hretChannelEnv h.rho h.s_k (residuals.map F64.toRat) h.m)
                 (hretGroupEnv h.group_indices h.rho_g h.s_g
                   (residuals.map F64.toRat) h.g) h.m) h.m)
             (residuals.map F64.toRat) h.m,
           normalizeWeights
             (hretHatWeights h.beta_k h.beta_g h.group_mapping
               (hretChannelEnv h.rho h.s_k (residuals.map F64.toRat) h.m)
               (hretGroupEnv h.group_indices h.rho_g h.s_g
                 (residuals.map F64.toRat) h.g) h.m) h.m,
           hretChannelEnv h.rho h.s_k (residuals.map F64.toRat) h.m,
           hretGroupEnv h.group_indices h.rho_g h.s_g
             (residuals.map F64.toRat) h.g) ∧
    h' = { h with
           s_k := hretChannelEnv h.rho h.s_k (residuals.map F64.toRat) h.m,
           s_g := hretGroupEnv h.group_indices h.rho_g h.s_g
             (residuals.map F64.toRat) h.g } := by
  by_cases h1 : h.m ≠ residuals.length
  · rw [HretObserver.update, if_pos h1] at hu
    simp at hu
  by_cases h2 : ∀ v ∈ residuals, v.isFinite
  swap
  · rw [HretObserver.update, if_neg h1, if_pos h2] at hu
    simp at hu
  rw [HretObserver.update, if_neg h1, if_neg (not_not_intro h2)] at hu
  obtain ⟨hout, hstate⟩ := Prod.mk.injEq .. ▸ hu
  refine ⟨by omega, h2, ?_, hstate.symm⟩
  exact (Except.ok.injEq .. ▸ hout).symm

/-- A rejected `update` call (wrong length or a non-finite entry) reports
the error and leaves the observer exactly as it was. -/
theorem HretObserver.update_rejected (h : HretObserver) (residuals : List F64)
    (hbad : residuals.length ≠ h.m ∨ ¬ ∀ v ∈ residuals, v.isFinite) :
    (∃ e, (h.update residuals).1 = .error e) ∧ (h.update residuals).2 = h := by
  by_cases h1 : h.m ≠ residuals.length
  · rw [HretObserver.update, if_pos h1]
    exact ⟨⟨_, rfl⟩, rfl⟩
  · have h2 : ¬ ∀ v ∈ residuals, v.isFinite := by
      rcases hbad with hb | hb
      · omega
      · exact hb
    rw [HretObserver.update, if_neg h1, if_pos h2]
    exact ⟨⟨_, rfl⟩, rfl⟩

/-- A freshly constructed observer is well-formed and its envelopes are
all zero. -/
theorem HretObserver.new_wf {m g : ℕ} {group_mapping : List ℕ} {rho : F64}
    {rho_g beta_k beta_g : List F64} {k_k : List (List F64)} {h : HretObserver}
    (hnew : HretObserver.new m g group_mapping rho rho_g beta_k beta_g k_k = .ok h) :
    h.WF ∧ h.s_k = List.replicate m 0 ∧ h.s_g = List.replicate g 0 ∧
    h.m = m ∧ h.g = g := by
  obtain ⟨hm, hg, hmap_len, hrg_len, hbk_len, hbg_len, hrho, hrhog, hbk, hbg,
    hmap, -, -, hrec⟩ := HretObserver.new_ok hnew
  subst hrec
  refine ⟨⟨hm, hg, hmap_len, hmap, by simpa using hrg_len, by simpa using hbk_len,
    by simpa using hbg_len, by simp, by simp, hrho.2.1, hrho.2.2, ?_, ?_, ?_⟩,
    rfl, rfl, rfl, rfl⟩
  · intro x hx
    obtain ⟨v, hv, rfl⟩ := List.mem_map.mp hx
    exact (hrhog v hv).2
  · intro x hx
    obtain ⟨v, hv, rfl⟩ := List.mem_map.mp hx
    exact (hbk v hv).2
  · intro x hx
    obtain ⟨v, hv, rfl⟩ := List.mem_map.mp hx
    exact (hbg v hv).2

/-! ## Arithmetic facts about the pipeline stages -/

theorem getD_nonneg (l : List ℚ) (k : ℕ) (h : ∀ x ∈ l, 0 ≤ x) :
    0 ≤ l.getD k 0 := by
  by_cases hk : k < l.length
  · exact h _ (getD_mem_of_lt l k hk 0)
  · rw [List.getD_eq_default _ _ (by omega)]

theorem getD_le_of_le (l : List ℚ) (k : ℕ) (B : ℚ) (hB : 0 ≤ B)
    (h : ∀ x ∈ l, x ≤ B) : l.getD k 0 ≤ B := by
  by_cases hk : k < l.length
  · exact h _ (getD_mem_of_lt l k hk 0)
  · rw [List.getD_eq_default _ _ (by omega)]; exact hB

theorem trustAffine_pos (beta s : ℚ) (hb : 0 ≤ beta) (hs : 0 ≤ s) :
    0 < trustAffine beta s := by
  have hden : (0 : ℚ) < 1 + beta * s := by positivity
  exact div_pos one_pos hden

theorem trustAffine_le_one (beta s : ℚ) (hb : 0 ≤ beta) (hs : 0 ≤ s) :
    trustAffine beta s ≤ 1 := by
  have hden : (1 : ℚ) ≤ 1 + beta * s := by nlinarith
  rw [trustAffine, div_le_one (by linarith)]
  exact hden

/-- The bounded-affine trust map is strictly antitone in the envelope for
positive sensitivity (larger disagreement ⇒ lower trust). -/
theorem trustAffine_strict_anti (beta s t : ℚ) (hb : 0 < beta) (hs : 0 ≤ s)
    (hst : s < t) : trustAffine beta t < trustAffine beta s := by
  have h1 : (0 : ℚ) < 1 + beta * s := by nlinarith
  have h2 : (0 : ℚ) < 1 + beta * t := by nlinarith
  rw [trustAffine, trustAffine, div_lt_div_iff₀ h2 h1]
  nlinarith

/-- The normaliser returns a convex combination whenever the unnormalised
scores are non-negative and the channel count is positive: every weight
lies in `[0, 1]` and the weights sum to exactly `1` (in exact arithmetic;
the spec's `1e-9` tolerance is met with slack). -/
theorem normalizeWeights_convex (hat : List ℚ) (m : ℕ) (hm : 0 < m)
    (hpos : ∀ x ∈ hat, 0 ≤ x) :
    (normalizeWeights hat m).sum = 1 ∧
      ∀ w ∈ normalizeWeights hat m, 0 ≤ w ∧ w ≤ 1 := by
  rw [normalizeWeights]
  split
  case isTrue hsum =>
    have heps : (0 : ℚ) < WEIGHT_SUM_EPS := by norm_num [WEIGHT_SUM_EPS]
    have hs0 : (0 : ℚ) < hat.sum := lt_trans heps hsum
    constructor
    · rw [list_sum_map_div, div_self (ne_of_gt hs0)]
    · intro w hw
      obtain ⟨x, hx, rfl⟩ := List.mem_map.mp hw
      constructor
      · exact div_nonneg (hpos x hx) (le_of_lt hs0)
      · rw [div_le_one hs0]
        exact List.single_le_sum hpos x hx
  case isFalse hsum =>
    have hmq : (0 : ℚ) < (m : ℚ) := by exact_mod_cast hm
    constructor
    · rw [List.sum_replicate, nsmul_eq_mul, mul_one_div, div_self (ne_of_gt hmq)]
    · intro w hw
      rw [List.eq_of_mem_replicate hw]
      constructor
      · positivity
      · rw [div_le_one hmq]
        exact_mod_cast hm

/-- Every composed (unnormalised) hierarchical score is strictly positive
when the sensitivities and envelope entries are non-negative. -/
theorem hretHatWeights_pos (beta_k beta_g : List ℚ) (mapping : List ℕ)
    (s_k s_g : List ℚ) (m : ℕ)
    (hbk : ∀ x ∈ beta_k, 0 ≤ x) (hbg : ∀ x ∈ beta_g, 0 ≤ x)
    (hsk : ∀ x ∈ s_k, 0 ≤ x) (hsg : ∀ x ∈ s_g, 0 ≤ x) :
    ∀ x ∈ hretHatWeights beta_k beta_g mapping s_k s_g m, 0 < x := by
  intro x hx
  obtain ⟨i, -, rfl⟩ := List.mem_map.mp hx
  exact mul_pos
    (trustAffine_pos _ _ (getD_nonneg _ _ hbk) (getD_nonneg _ _ hsk))
    (trustAffine_pos _ _ (getD_nonneg _ _ hbg) (getD_nonneg _ _ hsg))

theorem hretHatWeights_length (beta_k beta_g : List ℚ) (mapping : List ℕ)
    (s_k s_g : List ℚ) (m : ℕ) :
    (hretHatWeights beta_k beta_g mapping s_k s_g m).length = m := by
  simp [hretHatWeights]

/-- Channel envelopes stay non-negative and below any bound that dominates
the previous envelopes and the absolute residuals. -/
theorem hretChannelEnv_bounds (rho : ℚ) (s_k r : List ℚ) (m : ℕ) (B : ℚ)
    (hr0 : 0 < rho) (hr1 : rho < 1) (hB : 0 ≤ B)
    (hsk0 : ∀ x ∈ s_k, 0 ≤ x) (hskB : ∀ x ∈ s_k, x ≤ B)
    (hrB : ∀ i, |r.getD i 0| ≤ B) :
    ∀ x ∈ hretChannelEnv rho s_k r m, 0 ≤ x ∧ x ≤ B := by
  intro x hx
  obtain ⟨i, -, rfl⟩ := List.mem_map.mp hx
  have h1 : 0 ≤ s_k.getD i 0 := getD_nonneg _ _ hsk0
  have h2 : s_k.getD i 0 ≤ B := getD_le_of_le _ _ _ hB hskB
  have h3 : (0 : ℚ) ≤ |r.getD i 0| := abs_nonneg _
  have h4 : |r.getD i 0| ≤ B := hrB i
  constructor
  · nlinarith
  · nlinarith

/-- Group envelopes stay non-negative and bounded: an empty group keeps
its previous value; a non-empty group advances with the mean absolute
residual of its member channels, which obeys the same bound. -/
theorem hretGroupEnv_bounds (group_indices : List (List ℕ))
    (rho_g s_g r : List ℚ) (g : ℕ) (B : ℚ) (hB : 0 ≤ B)
    (hrg : ∀ x ∈ rho_g, 0 < x ∧ x < 1)
    (hsg0 : ∀ x ∈ s_g, 0 ≤ x) (hsgB : ∀ x ∈ s_g, x ≤ B)
    (hrB : ∀ i, |r.getD i 0| ≤ B) :
    ∀ x ∈ hretGroupEnv group_indices rho_g s_g r g, 0 ≤ x ∧ x ≤ B := by
  intro x hx
  obtain ⟨j, -, rfl⟩ := List.mem_map.mp hx
  simp only
  split
  case isTrue =>
    exact ⟨getD_nonneg _ _ hsg0, getD_le_of_le _ _ _ hB hsgB⟩
  case isFalse hne =>
    set channels := group_indices.getD j [] with hch
    have hlen : 0 < channels.length := List.length_pos.mpr hne
    have hlenq : (0 : ℚ) < (channels.length : ℚ) := by exact_mod_cast hlen
    set rho := rho_g.getD j 0 with hrho
    have hrho_bounds : 0 ≤ rho ∧ rho ≤ 1 := by
      by_cases hj : j < rho_g.length
      · have := hrg _ (getD_mem_of_lt rho_g j hj 0)
        exact ⟨le_of_lt this.1, le_of_lt this.2⟩
      · rw [hrho, List.getD_eq_default _ _ (by omega)]
        norm_num
    have hsum0 : 0 ≤ (channels.map fun i => |r.getD i 0|).sum :=
      List.sum_nonneg (by
        intro y hy
        obtain ⟨i, -, rfl⟩ := List.mem_map.mp hy
        exact abs_nonneg _)
    have hsumB : (channels.map fun i => |r.getD i 0|).sum ≤
        (channels.length : ℚ) * B := by
      have := List.sum_le_card_nsmul (channels.map fun i => |r.getD i 0|) B (by
        intro y hy
        obtain ⟨i, -, rfl⟩ := List.mem_map.mp hy
        exact hrB i)
      simpa [nsmul_eq_mul] using this
    have havg0 : 0 ≤ (channels.map fun i => |r.getD i 0|).sum / (channels.length : ℚ) :=
      div_nonneg hsum0 (le_of_lt hlenq)
    have havgB : (channels.map fun i => |r.getD i 0|).sum / (channels.length : ℚ) ≤ B := by
      rw [div_le_iff₀ hlenq]
      linarith [hsumB]
    have hs0 : 0 ≤ s_g.getD j 0 := getD_nonneg _ _ hsg0
    have hsB : s_g.getD j 0 ≤ B := getD_le_of_le _ _ _ hB hsgB
    constructor
    · nlinarith [hrho_bounds.1, hrho_bounds.2]
    · nlinarith [hrho_bounds.1, hrho_bounds.2]

/-- On finite inputs whose trust denominators do not vanish, the `F64`
computation of `calculate_trust_weights` is exactly its rational shadow. -/
theorem calculate_trust_weights_num (rs es : List ℚ) (rho sigma0 : ℚ)
    (hlen : rs.length ≤ es.length)
    (hden : ∀ s ∈ ctwEmaQ rs es rho, sigma0 + s ≠ 0) :
    calculate_trust_weights (rs.map F64.num) (es.map F64.num)
        (F64.num rho) (F64.num sigma0) =
      ((ctwWeightsQ rs es rho sigma0).map F64.num,
       (ctwEmaQ rs es rho).map F64.num) := by
  have hema : ctwEma (rs.map F64.num) (es.map F64.num) (F64.num rho) =
      (ctwEmaQ rs es rho).map F64.num := by
    rw [ctwEma, ctwEmaQ, List.map_map, List.length_map]
    refine List.map_congr_left ?_
    intro k hk
    have hk' : k < rs.length := List.mem_range.mp hk
    rw [getD_map_of_lt F64.num es k (by omega) F64.nan 0,
      getD_map_of_lt F64.num rs k hk' F64.nan 0]
    simp
  have hraw : ctwRaw ((ctwEmaQ rs es rho).map F64.num) (F64.num sigma0) =
      ((ctwEmaQ rs es rho).map fun s => 1 / (sigma0 + s)).map F64.num := by
    rw [ctwRaw, List.map_map, List.map_map]
    refine List.map_congr_left ?_
    intro s hs
    simp only [Function.comp]
    rw [F64.add_num, F64.div_num _ _ (hden s hs)]
  rw [calculate_trust_weights, hema, hraw, F64.listSum_num]
  set rawQ := (ctwEmaQ rs es rho).map fun s => 1 / (sigma0 + s) with hrawQ
  rw [ctwWeightsQ, ← hrawQ]
  simp only [F64.gt_num, List.length_map]
  by_cases hsum : 0 < rawQ.sum
  · rw [if_pos (by simpa using hsum), if_pos hsum]
    refine Prod.ext ?_ rfl
    simp only [List.map_map]
    refine List.map_congr_left ?_
    intro w hw
    simp only [Function.comp]
    rw [F64.div_num _ _ (ne_of_gt hsum)]
  · rw [if_neg (by simpa using hsum), if_neg hsum]
    refine Prod.ext ?_ rfl
    simp only [List.map_replicate]
    rcases Nat.eq_zero_or_pos rs.length with h0 | h0
    · rw [h0]; rfl
    · have : (rs.length : ℚ) ≠ 0 := by positivity
      rw [F64.div_num _ _ this]

/-- With positive softness and non-negative previous EMAs, the updated
EMAs are non-negative and every trust denominator is strictly positive. -/
theorem ctwEmaQ_nonneg (rs es : List ℚ) (rho : ℚ)
    (hr0 : 0 ≤ rho) (hr1 : rho ≤ 1) (hes : ∀ e ∈ es, 0 ≤ e) :
    ∀ s ∈ ctwEmaQ rs es rho, 0 ≤ s := by
  intro s hs
  obtain ⟨k, -, rfl⟩ := List.mem_map.mp hs
  have h1 : 0 ≤ es.getD k 0 := getD_nonneg _ _ hes
  have h2 : (0 : ℚ) ≤ |rs.getD k 0| := abs_nonneg _
  nlinarith

/-- The scalar-kinematic weights are a convex combination: non-negative,
at most one, and summing to exactly one. -/
theorem ctwWeightsQ_convex (rs es : List ℚ) (rho sigma0 : ℚ)
    (hne : rs ≠ []) (hr0 : 0 ≤ rho) (hr1 : rho ≤ 1) (hs0 : 0 < sigma0)
    (hes : ∀ e ∈ es, 0 ≤ e) :
    (ctwWeightsQ rs es rho sigma0).sum = 1 ∧
      ∀ w ∈ ctwWeightsQ rs es rho sigma0, 0 ≤ w ∧ w ≤ 1 := by
  have hema := ctwEmaQ_nonneg rs es rho hr0 hr1 hes
  rw [ctwWeightsQ]
  set rawQ := (ctwEmaQ rs es rho).map fun s => 1 / (sigma0 + s) with hrawQ
  have hraw_pos : ∀ w ∈ rawQ, 0 < w := by
    intro w hw
    obtain ⟨s, hs, rfl⟩ := List.mem_map.mp hw
    have := hema s hs
    positivity
  have hraw_ne : rawQ ≠ [] := by
    rw [hrawQ]
    simp only [ne_eq, List.map_eq_nil_iff, ctwEmaQ, List.range_eq_nil,
      List.length_eq_zero]
    exact hne
  have hsum : 0 < rawQ.sum := List.sum_pos _ hraw_pos hraw_ne
  rw [if_pos hsum]
  constructor
  · rw [list_sum_map_div, div_self (ne_of_gt hsum)]
  · intro w hw
    obtain ⟨x, hx, rfl⟩ := List.mem_map.mp hw
    refine ⟨div_nonneg (le_of_lt (hraw_pos x hx)) (le_of_lt hsum), ?_⟩
    rw [div_le_one hsum]
    exact List.single_le_sum (fun y hy => le_of_lt (hraw_pos y hy)) x hx

theorem absSup_nonneg (inputs : List (List F64)) : 0 ≤ absSup inputs :=
  base_le_foldr_max _ 0

theorem abs_le_absSup {inputs : List (List F64)} {r : List F64} {e : F64}
    (hr : r ∈ inputs) (he : e ∈ r) : |e.toRat| ≤ absSup inputs :=
  mem_le_foldr_max _ 0 _ (List.mem_map.mpr
    ⟨e, List.mem_flatten.mpr ⟨r, hr, he⟩, rfl⟩)

/-- One `update` call — accepted or rejected — keeps every channel and
group envelope inside `[0, B]` whenever `B` dominates the absolute
residuals of the call. -/
theorem HretObserver.update_preserves_env (h : HretObserver) (r : List F64)
    (B : ℚ) (hB : 0 ≤ B) (hrho0 : 0 < h.rho) (hrho1 : h.rho < 1)
    (hrg : ∀ x ∈ h.rho_g, 0 < x ∧ x < 1)
    (hr : ∀ e ∈ r, |e.toRat| ≤ B)
    (hsk : ∀ x ∈ h.s_k, 0 ≤ x ∧ x ≤ B)
    (hsg : ∀ x ∈ h.s_g, 0 ≤ x ∧ x ≤ B) :
    (∀ x ∈ ((h.update r).2).s_k, 0 ≤ x ∧ x ≤ B) ∧
      (∀ x ∈ ((h.update r).2).s_g, 0 ≤ x ∧ x ≤ B) := by
  by_cases hbad : r.length ≠ h.m ∨ ¬ ∀ v ∈ r, v.isFinite
  · rw [(HretObserver.update_rejected h r hbad).2]
    exact ⟨hsk, hsg⟩
  push_neg at hbad
  obtain ⟨hlen, hfin⟩ := hbad
  rw [HretObserver.update, if_neg (by omega), if_neg (not_not_intro hfin)]
  have hrB : ∀ i, |(r.map F64.toRat).getD i 0| ≤ B := by
    intro i
    by_cases hi : i < r.length
    · rw [getD_map_of_lt F64.toRat r i hi 0 (F64.num 0)]
      exact hr _ (getD_mem_of_lt r i hi (F64.num 0))
    · rw [List.getD_eq_default _ _ (by simpa using Nat.le_of_not_lt hi)]
      simpa using hB
  constructor
  · exact hretChannelEnv_bounds h.rho h.s_k (r.map F64.toRat) h.m B hrho0 hrho1
      hB (fun x hx => (hsk x hx).1) (fun x hx => (hsk x hx).2) hrB
  · exact hretGroupEnv_bounds h.group_indices h.rho_g h.s_g (r.map F64.toRat)
      h.g B hB hrg (fun x hx => (hsg x hx).1) (fun x hx => (hsg x hx).2) hrB

/-- The envelope invariant is preserved along any sequence of `update`
calls. -/
theorem HretObserver.runSeq_preserves_env (inputs : List (List F64))
    (h : HretObserver) (B : ℚ) (hB : 0 ≤ B)
    (hrho0 : 0 < h.rho) (hrho1 : h.rho < 1)
    (hrg : ∀ x ∈ h.rho_g, 0 < x ∧ x < 1)
    (hin : ∀ r ∈ inputs, ∀ e ∈ r, |e.toRat| ≤ B)
    (hsk : ∀ x ∈ h.s_k, 0 ≤ x ∧ x ≤ B)
    (hsg : ∀ x ∈ h.s_g, 0 ≤ x ∧ x ≤ B) :
    (∀ x ∈ ((h.runSeq inputs).2).s_k, 0 ≤ x ∧ x ≤ B) ∧
      (∀ x ∈ ((h.runSeq inputs).2).s_g, 0 ≤ x ∧ x ≤ B) := by
  induction inputs generalizing h with
  | nil => exact ⟨hsk, hsg⟩
  | cons r rest ih =>
      have hstep := HretObserver.update_preserves_env h r B hB hrho0 hrho1 hrg
        (hin r (List.mem_cons_self r rest)) hsk hsg
      have hconf := HretObserver.update_config h r
      exact ih ((h.update r).2)
        (hconf.2.2.2.2.1 ▸ hrho0) (hconf.2.2.2.2.1 ▸ hrho1)
        (hconf.2.2.2.2.2.1 ▸ hrg)
        (fun l hl e he => hin l (List.mem_cons_of_mem r hl) e he)
        hstep.1 hstep.2

/-- Channel envelopes are non-negative whenever the previous ones are. -/
theorem hretChannelEnv_nonneg (rho : ℚ) (s_k r : List ℚ) (m : ℕ)
    (hr0 : 0 ≤ rho) (hr1 : rho ≤ 1) (hsk : ∀ x ∈ s_k, 0 ≤ x) :
    ∀ x ∈ hretChannelEnv rho s_k r m, 0 ≤ x := by
  intro x hx
  obtain ⟨i, -, rfl⟩ := List.mem_map.mp hx
  have h1 : 0 ≤ s_k.getD i 0 := getD_nonneg _ _ hsk
  have h2 : (0 : ℚ) ≤ |r.getD i 0| := abs_nonneg _
  nlinarith

/-- Group envelopes are non-negative whenever the previous ones are. -/
theorem hretGroupEnv_nonneg (group_indices : List (List ℕ))
    (rho_g s_g r : List ℚ) (g : ℕ)
    (hrg : ∀ x ∈ rho_g, 0 ≤ x ∧ x ≤ 1) (hsg : ∀ x ∈ s_g, 0 ≤ x) :
    ∀ x ∈ hretGroupEnv group_indices rho_g s_g r g, 0 ≤ x := by
  intro x hx
  obtain ⟨j, -, rfl⟩ := List.mem_map.mp hx
  simp only
  split
  case isTrue => exact getD_nonneg _ _ hsg
  case isFalse hne =>
    have hrho : 0 ≤ rho_g.getD j 0 ∧ rho_g.getD j 0 ≤ 1 := by
      by_cases hj : j < rho_g.length
      · exact hrg _ (getD_mem_of_lt rho_g j hj 0)
      · rw [List.getD_eq_default _ _ (by omega)]; norm_num
    have hs : 0 ≤ s_g.getD j 0 := getD_nonneg _ _ hsg
    have hsum : 0 ≤ ((group_indices.getD j []).map fun i => |r.getD i 0|).sum :=
      List.sum_nonneg (by
        intro y hy
        obtain ⟨i, -, rfl⟩ := List.mem_map.mp hy
        exact abs_nonneg _)
    have havg : 0 ≤ ((group_indices.getD j []).map fun i => |r.getD i 0|).sum /
        ((group_indices.getD j []).length : ℚ) :=
      div_nonneg hsum (by positivity)
    nlinarith [hrho.1, hrho.2]

theorem obsA_new : HretObserver.new 2 2 [0, 1] (F64.num (1/2))
    [F64.num (1/2), F64.num (1/2)] [F64.num 1, F64.num 1]
    [F64.num 1, F64.num 1] [[F64.num 1, F64.num 1]] = .ok obsA := by
  rw [HretObserver.new]
  simp only [validate_positive, validate_len, validate_forgetting_factor,
    validate_forgetting_factors, validate_non_negative_finite,
    List.forall_mem_cons, List.forall_mem_nil, F64.isFinite_num, F64.toRat_num,
    List.length_cons, List.length_nil]
  norm_num [Bind.bind, Except.bind, build_group_indices, List.range_succ,
    obsA, List.filter, List.getD, List.replicate]

theorem obsB_new : HretObserver.new 2 2 [0, 1] (F64.num (1/2))
    [F64.num (1/2), F64.num (1/2)] [F64.num (10^308), F64.num (10^308)]
    [F64.num (10^308), F64.num (10^308)] [[F64.num 1, F64.num 1]] = .ok obsB := by
  rw [HretObserver.new]
  simp only [validate_positive, validate_len, validate_forgetting_factor,
    validate_forgetting_factors, validate_non_negative_finite,
    List.forall_mem_cons, List.forall_mem_nil, F64.isFinite_num, F64.toRat_num,
    List.length_cons, List.length_nil]
  norm_num [Bind.bind, Except.bind, build_group_indices, List.range_succ,
    obsB, List.filter, List.getD, List.replicate]

theorem obsA_wf : obsA.WF := by
  rw [HretObserver.WF]
  norm_num [obsA, List.forall_mem_cons]

theorem obsA_envnonneg : obsA.EnvNonneg := by
  rw [HretObserver.EnvNonneg]
  norm_num [obsA, List.forall_mem_cons]

theorem obsA_upd : obsA.update [F64.num 1, F64.num 1] =
    (.ok ([1], [1/2, 1/2], [1/2, 1/2], [1/2, 1/2]), obsA') := by
  rw [HretObserver.update]
  norm_num [obsA, obsA', hretChannelEnv, hretGroupEnv, hretHatWeights,
    normalizeWeights, hretCorrection, trustAffine, WEIGHT_SUM_EPS,
    List.range_succ, List.getD, List.forall_mem_cons, F64.toRat, F64.isFinite,
    List.replicate]

theorem obsB_upd : obsB.update [F64.num (10^308), F64.num (10^308)] =
    (.ok ([10^308], [1/2, 1/2], [5 * 10^307, 5 * 10^307],
          [5 * 10^307, 5 * 10^307]), obsB') := by
  rw [HretObserver.update]
  have hchan : hretChannelEnv obsB.rho obsB.s_k
      ([F64.num (10^308), F64.num (10^308)].map F64.toRat) obsB.m =
      [5 * 10^307, 5 * 10^307] := by
    norm_num [obsB, hretChannelEnv, List.range_succ, List.getD, F64.toRat]
  have hgrp : hretGroupEnv obsB.group_indices obsB.rho_g obsB.s_g
      ([F64.num (10^308), F64.num (10^308)].map F64.toRat) obsB.g =
      [5 * 10^307, 5 * 10^307] := by
    norm_num [obsB, hretGroupEnv, List.range_succ, List.getD, F64.toRat]
  have hhat : hretHatWeights obsB.beta_k obsB.beta_g obsB.group_mapping
      [5 * 10^307, 5 * 10^307] [5 * 10^307, 5 * 10^307] obsB.m =
      [1/(1 + 5*10^615) * (1/(1 + 5*10^615)),
       1/(1 + 5*10^615) * (1/(1 + 5*10^615))] := by
    norm_num [obsB, hretHatWeights, trustAffine, List.range_succ, List.getD]
  have hnw : normalizeWeights
      [1/(1 + 5*10^615) * (1/(1 + 5*10^615)),
       1/(1 + 5*10^615) * (1/(1 + 5*10^615))] obsB.m = [1/2, 1/2] := by
    rw [normalizeWeights, if_neg (by
      push_neg
      rw [WEIGHT_SUM_EPS, List.sum_cons, List.sum_cons, List.sum_nil, add_zero,
        div_mul_div_comm, one_mul, div_add_div_same,
        div_le_div_iff₀ (by positivity) (by positivity)]
      nlinarith [sq_nonneg ((1:ℚ) + 5 * 10 ^ 615)])]
    norm_num [obsB, List.replicate]
  rw [if_neg (by norm_num [obsB]), if_neg (by simp [List.forall_mem_cons])]
  simp only
  rw [hchan, hgrp, hhat, hnw]
  have hcorr : hretCorrection obsB.k_k [1/2, 1/2]
      ([F64.num (10^308), F64.num (10^308)].map F64.toRat) obsB.m =
      [10^308] := by
    norm_num [obsB, hretCorrection, List.range_succ, List.getD, F64.toRat]
  rw [hcorr]
  norm_num [obsB, obsB']

/-! ## Claims -/

/-- **C1** — For every valid configuration and every finite residual
vector of the configured length, the weight vector produced by a
step/update call is a convex combination: every weight lies in `[0, 1]`
and the weights sum to exactly `1` in the exact-arithmetic model (hence
well within the spec's `1e-9` tolerance).  This holds both for the
hierarchical `HretObserver::update` and for the scalar-kinematic
`calculate_trust_weights`. -/
theorem hret_and_scalar_weights_convex :
    (∀ (h h' : HretObserver) (residuals : List F64) (out : HretUpdate),
        h.WF → h.EnvNonneg → h.update residuals = (.ok out, h') →
        out.2.1.sum = 1 ∧ ∀ w ∈ out.2.1, 0 ≤ w ∧ w ≤ 1) ∧
    (∀ (rs es : List ℚ) (rho sigma0 : ℚ),
        rs ≠ [] → rs.length ≤ es.length → 0 ≤ rho → rho ≤ 1 → 0 < sigma0 →
        (∀ e ∈ es, 0 ≤ e) →
        (((calculate_trust_weights (rs.map F64.num) (es.map F64.num)
            (F64.num rho) (F64.num sigma0)).1).map F64.toRat).sum = 1 ∧
        ∀ w ∈ (calculate_trust_weights (rs.map F64.num) (es.map F64.num)
            (F64.num rho) (F64.num sigma0)).1,
          0 ≤ w.toRat ∧ w.toRat ≤ 1 ∧ w.isFinite) := by
  constructor
  · intro h h' residuals out hWF hEnv hu
    obtain ⟨hlen, hfin, hout, -⟩ := HretObserver.update_ok_inv hu
    obtain ⟨hm, hg, hmaplen, hmap, hrgl, hbkl, hbgl, hskl, hsgl, hrho0, hrho1,
      hrg, hbk, hbg⟩ := hWF
    obtain ⟨hsk0, hsg0⟩ := hEnv
    subst hout
    have hsk' := hretChannelEnv_nonneg h.rho h.s_k (residuals.map F64.toRat)
      h.m (le_of_lt hrho0) (le_of_lt hrho1) hsk0
    have hsg' := hretGroupEnv_nonneg h.group_indices h.rho_g h.s_g
      (residuals.map F64.toRat) h.g
      (fun x hx => ⟨le_of_lt (hrg x hx).1, le_of_lt (hrg x hx).2⟩) hsg0
    have hhat := hretHatWeights_pos h.beta_k h.beta_g h.group_mapping
      (hretChannelEnv h.rho h.s_k (residuals.map F64.toRat) h.m)
      (hretGroupEnv h.group_indices h.rho_g h.s_g (residuals.map F64.toRat) h.g)
      h.m hbk hbg hsk' hsg'
    exact normalizeWeights_convex _ h.m hm (fun x hx => le_of_lt (hhat x hx))
  · intro rs es rho sigma0 hne hlen hr0 hr1 hs0 hes
    have hema := ctwEmaQ_nonneg rs es rho hr0 hr1 hes
    have hden : ∀ s ∈ ctwEmaQ rs es rho, sigma0 + s ≠ 0 := by
      intro s hs
      have := hema s hs
      positivity
    rw [calculate_trust_weights_num rs es rho sigma0 hlen hden]
    obtain ⟨hsum, hmem⟩ := ctwWeightsQ_convex rs es rho sigma0 hne hr0 hr1 hs0 hes
    constructor
    · rw [List.map_map]
      have hid : (F64.toRat ∘ F64.num) = id := funext fun q => rfl
      rw [hid, List.map_id]
      exact hsum
    · intro w hw
      obtain ⟨q, hq, rfl⟩ := List.mem_map.mp hw
      have := hmem q hq
      simpa using this

/-- Witness for C1: the hypotheses are satisfiable — `obsA` (the test
configuration) with residuals `[1, 1]`, and a one-channel scalar call. -/
theorem hret_and_scalar_weights_convex_witness :
    (([(1:ℚ)], [(1:ℚ)/2, 1/2], [(1:ℚ)/2, 1/2], [(1:ℚ)/2, 1/2]) :
        HretUpdate).2.1.sum = 1 ∧
      (0 ≤ ((1:ℚ)/2) ∧ ((1:ℚ)/2) ≤ 1) ∧
      (((calculate_trust_weights [F64.num 1] [F64.num 0] (F64.num (9/10))
          (F64.num (1/10))).1).map F64.toRat).sum = 1 := by
  refine ⟨?_, ?_, ?_⟩
  · exact (hret_and_scalar_weights_convex.1 obsA obsA' [F64.num 1, F64.num 1]
      ([(1:ℚ)], [(1:ℚ)/2, 1/2], [(1:ℚ)/2, 1/2], [(1:ℚ)/2, 1/2])
      obsA_wf obsA_envnonneg obsA_upd).1
  · exact (hret_and_scalar_weights_convex.1 obsA obsA' [F64.num 1, F64.num 1]
      ([(1:ℚ)], [(1:ℚ)/2, 1/2], [(1:ℚ)/2, 1/2], [(1:ℚ)/2, 1/2])
      obsA_wf obsA_envnonneg obsA_upd).2 ((1:ℚ)/2) (by simp)
  · exact (hret_and_scalar_weights_convex.2 [1] [0] (9/10) (1/10)
      (by simp) (by simp) (by norm_num) (by norm_num) (by norm_num)
      (by norm_num)).1

/-- **C2, counterexample** — the claim asserts that *both* variants reject
non-finite input with an error and leave the envelope state unmodified.
The scalar-kinematic `DsfbObserver::step` performs no finiteness check:
stepping a freshly built one-channel observer with measurement `[NaN]`
returns `Ok` (no error of any kind) and overwrites the channel's EMA —
previously `0.0` — with NaN, poisoning the whole state. -/
theorem scalar_step_accepts_nan_and_mutates :
    (DsfbObserver.new (DsfbParams.new (F64.num (1/2)) (F64.num (1/10))
        (F64.num (1/100)) (F64.num (9/10)) (F64.num (1/10))) 1).step
      [F64.nan] (F64.num (1/10)) =
      .ok (⟨F64.nan, F64.nan, F64.nan⟩,
        ⟨DsfbParams.new (F64.num (1/2)) (F64.num (1/10)) (F64.num (1/100))
          (F64.num (9/10)) (F64.num (1/10)), 1,
         ⟨F64.nan, F64.nan, F64.nan⟩, [F64.nan],
         [⟨F64.nan, F64.num 1⟩]⟩) ∧
    [F64.nan] ≠ (DsfbObserver.new (DsfbParams.new (F64.num (1/2))
        (F64.num (1/10)) (F64.num (1/100)) (F64.num (9/10))
        (F64.num (1/10))) 1).ema_residuals := by
  constructor
  · rw [DsfbObserver.step]
    norm_num [DsfbObserver.new, DsfbParams.new, DsfbState.zero,
      calculate_trust_weights, ctwEma, ctwRaw, F64.listSum,
      F64.add, F64.mul, F64.sub, F64.neg, F64.fabs, F64.div, F64.gt,
      List.range_succ, List.getD, List.replicate, TrustStats.new]
  · simp [DsfbObserver.new, List.replicate]

/-- **C2, amended** — Atomic all-or-nothing rejection holds for the
hierarchical `HretObserver::update`: a call whose input has the wrong
length or contains a non-finite entry returns an error and leaves the
observer — in particular both envelope vectors — exactly as it was.  The
scalar-kinematic `DsfbObserver::step` checks only the measurement count
(as a panic, modelled by the error case), which likewise precedes any
mutation; it does not validate finiteness (see the counterexample). -/
theorem hret_update_rejects_invalid_input_atomically :
    (∀ (h : HretObserver) (residuals : List F64),
        residuals.length ≠ h.m ∨ ¬ (∀ v ∈ residuals, v.isFinite) →
        (∃ e, (h.update residuals).1 = .error e) ∧
          (h.update residuals).2 = h) ∧
    (∀ (o : DsfbObserver) (measurements : List F64) (dt : F64),
        measurements.length ≠ o.channels →
        ∃ e, o.step measurements dt = .error e) := by
  constructor
  · exact fun h residuals hbad => HretObserver.update_rejected h residuals hbad
  · intro o measurements dt hlen
    rw [DsfbObserver.step, if_pos hlen]
    exact ⟨_, rfl⟩

/-- Witness for the amended C2, at `obsA` with a NaN entry: the observer
is returned untouched. -/
theorem hret_update_rejects_invalid_input_atomically_witness :
    (obsA.update [F64.nan, F64.num 0]).2 = obsA :=
  (hret_update_rejects_invalid_input_atomically.1 obsA [F64.nan, F64.num 0]
    (Or.inr (by norm_num [List.forall_mem_cons, F64.isFinite]))).2

/-- **C3, counterexample** — the claim's "single consistently-applied
epsilon constant (e.g. 1e-12)" fails on the code: the hierarchical
normaliser compares against `1e-12`, but `calculate_trust_weights`
compares against `0.0`.  At residuals `[0, 1e13]`, zero EMAs, `rho = 0.5`
and `sigma0 = 1e13`, the raw scores are `[1e-13, 1/(1.5e13)]`, whose sum
is below `1e-12`; the claimed normaliser (with its example `ε`) would
return the uniform `[0.5, 0.5]`, but the code divides and returns
`[0.6, 0.4]`. -/
theorem scalar_normalizer_uses_zero_threshold :
    ((ctwEmaQ [0, 10^13] [0, 0] (1/2)).map fun s => 1 / (10^13 + s)) =
      [1/10^13, 1/(15 * 10^12)] ∧
    ([(1:ℚ)/10^13, 1/(15 * 10^12)]).sum ≤ 1/10^12 ∧
    specNormalizeWeights [1/10^13, 1/(15 * 10^12)] =
      [(1:ℚ)/2, 1/2] ∧
    (calculate_trust_weights [F64.num 0, F64.num (10^13)]
        [F64.num 0, F64.num 0] (F64.num (1/2)) (F64.num (10^13))).1 =
      [F64.num (3/5), F64.num (2/5)] ∧
    [F64.num (3/5), F64.num (2/5)] ≠ [F64.num ((1:ℚ)/2), F64.num (1/2)] := by
  refine ⟨?_, by norm_num, ?_, ?_, by norm_num⟩
  · norm_num [ctwEmaQ, List.range_succ, List.getD]
  · rw [specNormalizeWeights, if_neg (by norm_num)]
    norm_num [List.replicate]
  · rw [calculate_trust_weights]
    norm_num [ctwEma, ctwRaw, F64.listSum, F64.add, F64.mul, F64.sub,
      F64.neg, F64.fabs, F64.div, F64.gt, List.range_succ, List.getD,
      List.replicate]

/-- **C3, amended** — Each normaliser applies its own threshold
consistently, but the two differ: `HretObserver::update` returns
`hat/Σhat` when `Σhat > 1e-12` and the uniform `1/m` otherwise, while
`calculate_trust_weights` divides whenever its raw-score sum is `> 0`
and falls back to uniform only otherwise.  Neither divides by zero.  In
particular, with 2 channels in 2 distinct groups, `beta_k = beta_g =
1e308` and residuals `1e308` on both channels, the hierarchical fallback
engages and both final weights equal exactly `0.5`. -/
theorem normalizer_thresholds_and_uniform_fallback :
    (∀ (h h' : HretObserver) (residuals : List F64) (out : HretUpdate),
        h.update residuals = (.ok out, h') →
        ((WEIGHT_SUM_EPS <
            (hretHatWeights h.beta_k h.beta_g h.group_mapping
              out.2.2.1 out.2.2.2 h.m).sum →
          out.2.1 = (hretHatWeights h.beta_k h.beta_g h.group_mapping
              out.2.2.1 out.2.2.2 h.m).map
            (· / (hretHatWeights h.beta_k h.beta_g h.group_mapping
              out.2.2.1 out.2.2.2 h.m).sum)) ∧
         ((hretHatWeights h.beta_k h.beta_g h.group_mapping
              out.2.2.1 out.2.2.2 h.m).sum ≤ WEIGHT_SUM_EPS →
          out.2.1 = List.replicate h.m ((1 : ℚ) / (h.m : ℚ))))) ∧
    (∀ (rs es : List ℚ) (rho sigma0 : ℚ),
        rs.length ≤ es.length →
        (∀ s ∈ ctwEmaQ rs es rho, sigma0 + s ≠ 0) →
        ((0 < (((ctwEmaQ rs es rho).map fun s => 1 / (sigma0 + s)).sum) →
          (calculate_trust_weights (rs.map F64.num) (es.map F64.num)
              (F64.num rho) (F64.num sigma0)).1 =
            (((ctwEmaQ rs es rho).map fun s => 1 / (sigma0 + s)).map
              (· / (((ctwEmaQ rs es rho).map fun s => 1 / (sigma0 + s)).sum))).map
              F64.num) ∧
         ((((ctwEmaQ rs es rho).map fun s => 1 / (sigma0 + s)).sum ≤ 0 →
          (calculate_trust_weights (rs.map F64.num) (es.map F64.num)
              (F64.num rho) (F64.num sigma0)).1 =
            (List.replicate rs.length ((1 : ℚ) / (rs.length : ℚ))).map
              F64.num)))) ∧
    (HretObserver.new 2 2 [0, 1] (F64.num (1/2))
        [F64.num (1/2), F64.num (1/2)] [F64.num (10^308), F64.num (10^308)]
        [F64.num (10^308), F64.num (10^308)] [[F64.num 1, F64.num 1]] =
      .ok obsB ∧
     obsB.update [F64.num (10^308), F64.num (10^308)] =
       (.ok ([10^308], [1/2, 1/2], [5 * 10^307, 5 * 10^307],
             [5 * 10^307, 5 * 10^307]), obsB')) := by
  refine ⟨?_, ?_, obsB_new, obsB_upd⟩
  · intro h h' residuals out hu
    obtain ⟨-, -, hout, -⟩ := HretObserver.update_ok_inv hu
    subst hout
    simp only
    rw [normalizeWeights]
    constructor
    · intro hgt
      rw [if_pos hgt]
    · intro hle
      rw [if_neg (not_lt.mpr hle)]
  · intro rs es rho sigma0 hlen hden
    rw [calculate_trust_weights_num rs es rho sigma0 hlen hden]
    simp only
    rw [ctwWeightsQ]
    constructor
    · intro hgt
      rw [if_pos hgt]
    · intro hle
      rw [if_neg (not_lt.mpr hle)]

/-- Witness for the amended C3: at `obsB` with residuals `[1e308, 1e308]`
the hat-score sum is below `1e-12` and the uniform fallback branch
applies, giving `[1/2, 1/2] = replicate 2 (1/2)`. -/
theorem normalizer_thresholds_and_uniform_fallback_witness :
    ([(1:ℚ)/2, 1/2] : List ℚ) = List.replicate obsB.m ((1 : ℚ) / (obsB.m : ℚ)) :=
  ((normalizer_thresholds_and_uniform_fallback.1 obsB obsB'
      [F64.num (10^308), F64.num (10^308)]
      ([10^308], [1/2, 1/2], [5 * 10^307, 5 * 10^307],
       [5 * 10^307, 5 * 10^307]) obsB_upd).2 (by
    have hhat : hretHatWeights obsB.beta_k obsB.beta_g obsB.group_mapping
        [5 * 10^307, 5 * 10^307] [5 * 10^307, 5 * 10^307] obsB.m =
        [1/(1 + 5*10^615) * (1/(1 + 5*10^615)),
         1/(1 + 5*10^615) * (1/(1 + 5*10^615))] := by
      norm_num [obsB, hretHatWeights, trustAffine, List.range_succ, List.getD]
    rw [hhat, WEIGHT_SUM_EPS, List.sum_cons, List.sum_cons, List.sum_nil,
      add_zero, div_mul_div_comm, one_mul, div_add_div_same,
      div_le_div_iff₀ (by positivity) (by positivity)]
    nlinarith [sq_nonneg ((1:ℚ) + 5 * 10 ^ 615)]))

/-- **C4** — Each accepted update advances every channel envelope by
`new = rho * previous + (1 - rho) * |residual|`; each group envelope uses
the mean absolute residual of the group's member channels, and a group
with no member channels keeps its previous envelope value unchanged.  In
particular (`ResidualEnvelope`), with `rho = 0.9`, initial envelope `0.0`
and residual `2.0`, the updated envelope equals exactly
`0.2 = (1 - 0.9) * 2.0`. -/
theorem envelope_recursion :
    (∀ (h h' : HretObserver) (residuals : List F64) (out : HretUpdate),
        h.update residuals = (.ok out, h') →
        (∀ i < h.m, out.2.2.1.getD i 0 =
            h.rho * h.s_k.getD i 0 +
              (1 - h.rho) * |(residuals.map F64.toRat).getD i 0|) ∧
        (∀ j < h.g,
          (h.group_indices.getD j [] = [] →
            out.2.2.2.getD j 0 = h.s_g.getD j 0) ∧
          (h.group_indices.getD j [] ≠ [] →
            out.2.2.2.getD j 0 =
              h.rho_g.getD j 0 * h.s_g.getD j 0 +
                (1 - h.rho_g.getD j 0) *
                  (((h.group_indices.getD j []).map fun i =>
                      |(residuals.map F64.toRat).getD i 0|).sum /
                    (((h.group_indices.getD j []).length : ℚ)))))) ∧
    (ResidualEnvelope.new (F64.num (9/10)) (F64.num 0) = .ok ⟨0, 9/10⟩ ∧
     ResidualEnvelope.update ⟨0, 9/10⟩ (F64.num 2) = .ok (1/5, ⟨1/5, 9/10⟩) ∧
     (1 : ℚ)/5 = (1 - 9/10) * 2) := by
  refine ⟨?_, ?_, ?_, by norm_num⟩
  · intro h h' residuals out hu
    obtain ⟨-, -, hout, -⟩ := HretObserver.update_ok_inv hu
    subst hout
    constructor
    · intro i hi
      simp only
      rw [hretChannelEnv, getD_range_map _ h.m i hi 0]
    · intro j hj
      simp only
      rw [hretGroupEnv, getD_range_map _ h.g j hj 0]
      constructor
      · intro hempty
        rw [if_pos hempty]
      · intro hne
        rw [if_neg hne]
  · rw [ResidualEnvelope.new]
    norm_num
  · rw [ResidualEnvelope.update]
    norm_num

/-- Witness for C4: `obsA` at residuals `[1, 1]`, channel 0. -/
theorem envelope_recursion_witness :
    (([(1:ℚ)], [(1:ℚ)/2, 1/2], [(1:ℚ)/2, 1/2], [(1:ℚ)/2, 1/2]) :
        HretUpdate).2.2.1.getD 0 0 =
      obsA.rho * obsA.s_k.getD 0 0 +
        (1 - obsA.rho) * |(([F64.num 1, F64.num 1]).map F64.toRat).getD 0 0| :=
  (envelope_recursion.1 obsA obsA' [F64.num 1, F64.num 1]
    ([(1:ℚ)], [(1:ℚ)/2, 1/2], [(1:ℚ)/2, 1/2], [(1:ℚ)/2, 1/2])
    obsA_upd).1 0 (by norm_num [obsA])

/-- **C5** — In the hierarchical configuration each channel's
unnormalised score is the product of its own trust score and its group's
trust score, `hat_w_k = TrustMap(s_k) * TrustMap(s_g[group(k)])`, and the
final weights are that vector normalised.  In particular, for 2 channels
in 2 singleton groups with `rho = rho_g = 0.5`, `beta_k = beta_g = 1.0`,
`K = [[1, 1]]` and residuals `[1.0, 1.0]`, the update returns weights
`[0.5, 0.5]` and a correction with `delta_x[0] = 1.0`. -/
theorem hierarchical_composition :
    (∀ (h h' : HretObserver) (residuals : List F64) (out : HretUpdate),
        h.update residuals = (.ok out, h') →
        out.2.1 = normalizeWeights
          (hretHatWeights h.beta_k h.beta_g h.group_mapping
            out.2.2.1 out.2.2.2 h.m) h.m ∧
        ∀ i < h.m,
          (hretHatWeights h.beta_k h.beta_g h.group_mapping
              out.2.2.1 out.2.2.2 h.m).getD i 0 =
            trustAffine (h.beta_k.getD i 0) (out.2.2.1.getD i 0) *
              trustAffine (h.beta_g.getD (h.group_mapping.getD i 0) 0)
                (out.2.2.2.getD (h.group_mapping.getD i 0) 0)) ∧
    (HretObserver.new 2 2 [0, 1] (F64.num (1/2))
        [F64.num (1/2), F64.num (1/2)] [F64.num 1, F64.num 1]
        [F64.num 1, F64.num 1] [[F64.num 1, F64.num 1]] = .ok obsA ∧
     obsA.update [F64.num 1, F64.num 1] =
       (.ok ([1], [1/2, 1/2], [1/2, 1/2], [1/2, 1/2]), obsA')) := by
  refine ⟨?_, obsA_new, obsA_upd⟩
  intro h h' residuals out hu
  obtain ⟨-, -, hout, -⟩ := HretObserver.update_ok_inv hu
  subst hout
  refine ⟨rfl, ?_⟩
  intro i hi
  simp only
  rw [hretHatWeights, getD_range_map _ h.m i hi 0]

/-- Witness for C5: the composition formula instantiated at `obsA`,
channel 0. -/
theorem hierarchical_composition_witness :
    (hretHatWeights obsA.beta_k obsA.beta_g obsA.group_mapping
        [(1:ℚ)/2, 1/2] [(1:ℚ)/2, 1/2] obsA.m).getD 0 0 =
      trustAffine (obsA.beta_k.getD 0 0) (([(1:ℚ)/2, 1/2]).getD 0 0) *
        trustAffine (obsA.beta_g.getD (obsA.group_mapping.getD 0 0) 0)
          (([(1:ℚ)/2, 1/2]).getD (obsA.group_mapping.getD 0 0) 0) :=
  (hierarchical_composition.1 obsA obsA' [F64.num 1, F64.num 1]
    ([(1:ℚ)], [(1:ℚ)/2, 1/2], [(1:ℚ)/2, 1/2], [(1:ℚ)/2, 1/2])
    obsA_upd).2 0 (by norm_num [obsA])

/-- **C6, counterexample** — the claim asserts that *both* variants
reject invalid construction parameters with a `ConfigurationError`.  The
scalar-kinematic `DsfbParams::new` performs no validation at all: it
accepts a forgetting factor of `5` (far outside `(0, 1)`) and a negative
softness `sigma0 = -1`, and `DsfbObserver::new` then happily builds a
complete estimator around those values. -/
theorem scalar_params_construction_never_fails :
    (DsfbParams.new (F64.num (1/2)) (F64.num (1/10)) (F64.num (1/100))
        (F64.num 5) (F64.num (-1))).rho = F64.num 5 ∧
    (DsfbParams.new (F64.num (1/2)) (F64.num (1/10)) (F64.num (1/100))
        (F64.num 5) (F64.num (-1))).sigma0 = F64.num (-1) ∧
    (DsfbObserver.new (DsfbParams.new (F64.num (1/2)) (F64.num (1/10))
        (F64.num (1/100)) (F64.num 5) (F64.num (-1))) 2).channels = 2 ∧
    (DsfbObserver.new (DsfbParams.new (F64.num (1/2)) (F64.num (1/10))
        (F64.num (1/100)) (F64.num 5) (F64.num (-1))) 2).params.sigma0 =
      F64.num (-1) :=
  ⟨rfl, rfl, rfl, rfl⟩

/-- **C6, amended** — For the hierarchical variant every listed invalid
input is rejected at construction time, atomically (an `Except` yields
either a complete observer or an error, never a partial object): a
successful construction certifies that the mapping length matches the
channel count, every group index is in range, the gain matrix is
non-empty with finite rows of length `m`, the forgetting factors are
finite and in `(0, 1)`, and the sensitivities are finite and
non-negative.  The scalar-kinematic `DsfbParams::new` /
`DsfbObserver::new` perform no such validation (see the
counterexample). -/
theorem hret_construction_validation :
    ∀ (m g : ℕ) (mp : List ℕ) (rho : F64) (rho_g beta_k beta_g : List F64)
      (k_k : List (List F64)) (h : HretObserver),
      HretObserver.new m g mp rho rho_g beta_k beta_g k_k = .ok h →
      0 < m ∧ 0 < g ∧ mp.length = m ∧ (∀ i ∈ mp, i < g) ∧ k_k ≠ [] ∧
      (∀ row ∈ k_k, row.length = m ∧ ∀ e ∈ row, e.isFinite) ∧
      (rho.isFinite ∧ 0 < rho.toRat ∧ rho.toRat < 1) ∧
      (∀ v ∈ rho_g, v.isFinite ∧ 0 < v.toRat ∧ v.toRat < 1) ∧
      (∀ v ∈ beta_k, v.isFinite ∧ 0 ≤ v.toRat) ∧
      (∀ v ∈ beta_g, v.isFinite ∧ 0 ≤ v.toRat) := by
  intro m g mp rho rho_g beta_k beta_g k_k h hnew
  obtain ⟨hm, hg, hmaplen, -, -, -, hrho, hrhog, hbk, hbg, hmap, hk0,
    hrows, -⟩ := HretObserver.new_ok hnew
  exact ⟨hm, hg, hmaplen, hmap, hk0, hrows, hrho, hrhog, hbk, hbg⟩

/-- Witness for the amended C6, at the `obsA` construction. -/
theorem hret_construction_validation_witness :
    0 < 2 ∧ ([0, 1] : List ℕ).length = 2 :=
  ⟨(hret_construction_validation 2 2 [0, 1] (F64.num (1/2))
      [F64.num (1/2), F64.num (1/2)] [F64.num 1, F64.num 1]
      [F64.num 1, F64.num 1] [[F64.num 1, F64.num 1]] obsA obsA_new).1,
   (hret_construction_validation 2 2 [0, 1] (F64.num (1/2))
      [F64.num (1/2), F64.num (1/2)] [F64.num 1, F64.num 1]
      [F64.num 1, F64.num 1] [[F64.num 1, F64.num 1]] obsA obsA_new).2.2.1⟩

theorem obsA_runseq : (obsA.runSeq [[F64.num 1, F64.num 1]]).2 = obsA' := by
  simp [HretObserver.runSeq, obsA_upd]

/-- **C7** — Starting from the all-zero envelopes a construction
produces, after any sequence of `update` calls every channel envelope and
every group envelope is non-negative and bounded above by the supremum of
the absolute residuals observed so far, and the property also holds after
a subsequent `reset_envelopes`.  (Rejected calls leave the state
untouched, so the statement quantifies over arbitrary input sequences;
`absSup` collects the absolute values of the finite entries.) -/
theorem envelopes_nonneg_bounded_by_observed_sup :
    ∀ (m g : ℕ) (mp : List ℕ) (rho : F64) (rho_g beta_k beta_g : List F64)
      (k_k : List (List F64)) (h0 : HretObserver) (inputs : List (List F64)),
      HretObserver.new m g mp rho rho_g beta_k beta_g k_k = .ok h0 →
      (∀ x ∈ ((h0.runSeq inputs).2).s_k, 0 ≤ x ∧ x ≤ absSup inputs) ∧
      (∀ x ∈ ((h0.runSeq inputs).2).s_g, 0 ≤ x ∧ x ≤ absSup inputs) ∧
      (∀ x ∈ (((h0.runSeq inputs).2).reset_envelopes).s_k,
        0 ≤ x ∧ x ≤ absSup inputs) ∧
      (∀ x ∈ (((h0.runSeq inputs).2).reset_envelopes).s_g,
        0 ≤ x ∧ x ≤ absSup inputs) := by
  intro m g mp rho rho_g beta_k beta_g k_k h0 inputs hnew
  obtain ⟨hwf, hsk0, hsg0, -, -⟩ := HretObserver.new_wf hnew
  obtain ⟨-, -, -, -, -, -, -, -, -, hrho0, hrho1, hrg, -, -⟩ := hwf
  have hskinit : ∀ x ∈ h0.s_k, 0 ≤ x ∧ x ≤ absSup inputs := by
    intro x hx
    rw [hsk0] at hx
    rw [List.eq_of_mem_replicate hx]
    exact ⟨le_refl 0, absSup_nonneg inputs⟩
  have hsginit : ∀ x ∈ h0.s_g, 0 ≤ x ∧ x ≤ absSup inputs := by
    intro x hx
    rw [hsg0] at hx
    rw [List.eq_of_mem_replicate hx]
    exact ⟨le_refl 0, absSup_nonneg inputs⟩
  have hmain := HretObserver.runSeq_preserves_env inputs h0 (absSup inputs)
    (absSup_nonneg inputs) hrho0 hrho1 hrg
    (fun r hr e he => abs_le_absSup hr he) hskinit hsginit
  refine ⟨hmain.1, hmain.2, ?_, ?_⟩
  · intro x hx
    rw [HretObserver.reset_envelopes] at hx
    simp only at hx
    rw [List.eq_of_mem_replicate hx]
    exact ⟨le_refl 0, absSup_nonneg inputs⟩
  · intro x hx
    rw [HretObserver.reset_envelopes] at hx
    simp only at hx
    rw [List.eq_of_mem_replicate hx]
    exact ⟨le_refl 0, absSup_nonneg inputs⟩

/-- Witness for C7: `obsA` built by `new`, one update with residuals
`[1, 1]`; the first channel envelope `1/2` obeys the bound. -/
theorem envelopes_nonneg_bounded_by_observed_sup_witness :
    0 ≤ ((1:ℚ)/2) ∧ ((1:ℚ)/2) ≤ absSup [[F64.num 1, F64.num 1]] :=
  (envelopes_nonneg_bounded_by_observed_sup 2 2 [0, 1] (F64.num (1/2))
    [F64.num (1/2), F64.num (1/2)] [F64.num 1, F64.num 1]
    [F64.num 1, F64.num 1] [[F64.num 1, F64.num 1]] obsA
    [[F64.num 1, F64.num 1]] obsA_new).1 ((1:ℚ)/2)
    (by rw [obsA_runseq]; norm_num [obsA'])

/-- **C8** — `reset_envelopes` zeroes all channel and group envelope
state and changes no configuration field; consequently an observer that
shares a fresh instance's configuration produces, after a reset, exactly
the same sequence of outputs and states on any input sequence as the
freshly constructed instance. -/
theorem reset_envelopes_restores_fresh_trajectory :
    (∀ h : HretObserver,
        (h.reset_envelopes).m = h.m ∧ (h.reset_envelopes).g = h.g ∧
        (h.reset_envelopes).group_mapping = h.group_mapping ∧
        (h.reset_envelopes).group_indices = h.group_indices ∧
        (h.reset_envelopes).rho = h.rho ∧
        (h.reset_envelopes).rho_g = h.rho_g ∧
        (h.reset_envelopes).beta_k = h.beta_k ∧
        (h.reset_envelopes).beta_g = h.beta_g ∧
        (h.reset_envelopes).k_k = h.k_k ∧
        (h.reset_envelopes).s_k = List.replicate h.s_k.length 0 ∧
        (h.reset_envelopes).s_g = List.replicate h.s_g.length 0) ∧
    (∀ (m g : ℕ) (mp : List ℕ) (rho : F64)
        (rho_g beta_k beta_g : List F64) (k_k : List (List F64))
        (h0 h : HretObserver) (inputs : List (List F64)),
        HretObserver.new m g mp rho rho_g beta_k beta_g k_k = .ok h0 →
        h.m = h0.m → h.g = h0.g → h.group_mapping = h0.group_mapping →
        h.group_indices = h0.group_indices → h.rho = h0.rho →
        h.rho_g = h0.rho_g → h.beta_k = h0.beta_k → h.beta_g = h0.beta_g →
        h.k_k = h0.k_k → h.s_k.length = h0.s_k.length →
        h.s_g.length = h0.s_g.length →
        (h.reset_envelopes).runSeq inputs = h0.runSeq inputs) := by
  constructor
  · intro h
    exact ⟨rfl, rfl, rfl, rfl, rfl, rfl, rfl, rfl, rfl, rfl, rfl⟩
  · intro m g mp rho rho_g beta_k beta_g k_k h0 h inputs hnew hm hg hmapq
      hgi hrho hrhog hbk hbg hkk hlsk hlsg
    have hres : h.reset_envelopes = h0 := by
      obtain ⟨-, -, -, -, -, -, -, -, -, -, -, -, -, hrec⟩ :=
        HretObserver.new_ok hnew
      apply HretObserver.ext
      · exact hm
      · exact hg
      · exact hmapq
      · exact hgi
      · exact hrho
      · exact hrhog
      · exact hbk
      · exact hbg
      · show List.replicate h.s_k.length 0 = h0.s_k
        rw [hlsk, hrec]
        simp
      · show List.replicate h.s_g.length 0 = h0.s_g
        rw [hlsg, hrec]
        simp
      · exact hkk
    rw [hres]

/-- Witness for C8: the post-update instance `obsA'`, reset, replays an
all-zero-residual step exactly as the freshly constructed `obsA`. -/
theorem reset_envelopes_restores_fresh_trajectory_witness :
    (obsA'.reset_envelopes).runSeq [[F64.num 0, F64.num 0]] =
      obsA.runSeq [[F64.num 0, F64.num 0]] :=
  reset_envelopes_restores_fresh_trajectory.2 2 2 [0, 1] (F64.num (1/2))
    [F64.num (1/2), F64.num (1/2)] [F64.num 1, F64.num 1]
    [F64.num 1, F64.num 1] [[F64.num 1, F64.num 1]] obsA obsA'
    [[F64.num 0, F64.num 0]] obsA_new rfl rfl rfl rfl rfl rfl rfl rfl rfl
    rfl rfl

theorem normalizeWeights_length (hat : List ℚ) (m : ℕ)
    (hhat : hat.length = m) : (normalizeWeights hat m).length = m := by
  rw [normalizeWeights]
  split
  · simpa using hhat
  · simp

/-- **C9** — Every successful `HretObserver::update` call returns a tuple
whose components have exactly the lengths fixed at construction: the
correction has one entry per gain-matrix row, the weights and channel
envelopes have one entry per channel, and the group envelopes have one
entry per group. -/
theorem update_output_lengths :
    ∀ (h h' : HretObserver) (residuals : List F64) (out : HretUpdate),
      h.update residuals = (.ok out, h') →
      out.1.length = h.k_k.length ∧ out.2.1.length = h.m ∧
      out.2.2.1.length = h.m ∧ out.2.2.2.length = h.g := by
  intro h h' residuals out hu
  obtain ⟨-, -, hout, -⟩ := HretObserver.update_ok_inv hu
  subst hout
  refine ⟨?_, ?_, ?_, ?_⟩
  · simp [hretCorrection]
  · exact normalizeWeights_length _ _ (hretHatWeights_length _ _ _ _ _ _)
  · simp [hretChannelEnv]
  · simp [hretGroupEnv]

/-- Witness for C9, at `obsA` with residuals `[1, 1]`. -/
theorem update_output_lengths_witness :
    ([(1:ℚ)] : List ℚ).length = obsA.k_k.length ∧
      ([(1:ℚ)/2, 1/2] : List ℚ).length = obsA.m :=
  ⟨(update_output_lengths obsA obsA' [F64.num 1, F64.num 1]
      ([(1:ℚ)], [(1:ℚ)/2, 1/2], [(1:ℚ)/2, 1/2], [(1:ℚ)/2, 1/2]) obsA_upd).1,
   (update_output_lengths obsA obsA' [F64.num 1, F64.num 1]
      ([(1:ℚ)], [(1:ℚ)/2, 1/2], [(1:ℚ)/2, 1/2], [(1:ℚ)/2, 1/2]) obsA_upd).2.1⟩

/-- **C10** — A freshly constructed scalar-kinematic observer reports,
before any step, a trust weight of exactly `1.0` and a residual EMA of
exactly `0.0` for every channel; consequently the per-channel weights
queryable at the public interface sum to `m` — not `1` — until the first
`step` call. -/
theorem fresh_scalar_observer_unit_weights :
    ∀ (params : DsfbParams) (m : ℕ),
      (∀ k < m, (DsfbObserver.new params m).trust_weight k = F64.num 1 ∧
        (DsfbObserver.new params m).ema_residual k = F64.num 0) ∧
      F64.listSum ((List.range m).map fun k =>
        (DsfbObserver.new params m).trust_weight k) = F64.num (m : ℚ) := by
  intro params m
  have hstat : ∀ k < m,
      (List.replicate m TrustStats.new).getD k ⟨F64.nan, F64.nan⟩ =
        TrustStats.new := by
    intro k hk
    exact List.eq_of_mem_replicate
      (getD_mem_of_lt _ k (by simpa using hk) ⟨F64.nan, F64.nan⟩)
  constructor
  · intro k hk
    constructor
    · rw [DsfbObserver.trust_weight]
      show ((List.replicate m TrustStats.new).getD k ⟨F64.nan, F64.nan⟩).weight =
        F64.num 1
      rw [hstat k hk]
      rfl
    · rw [DsfbObserver.ema_residual]
      show ((List.replicate m TrustStats.new).getD k
        ⟨F64.nan, F64.nan⟩).residual_ema = F64.num 0
      rw [hstat k hk]
      rfl
  · have hmap : ((List.range m).map fun k =>
        (DsfbObserver.new params m).trust_weight k) =
        (List.replicate m (1 : ℚ)).map F64.num := by
      rw [List.map_replicate]
      have : ∀ k ∈ List.range m,
          (DsfbObserver.new params m).trust_weight k = F64.num 1 := by
        intro k hk
        rw [DsfbObserver.trust_weight]
        show ((List.replicate m TrustStats.new).getD k
          ⟨F64.nan, F64.nan⟩).weight = F64.num 1
        rw [hstat k (List.mem_range.mp hk)]
        rfl
      rw [List.map_congr_left this]
      simp [List.map_const]
    rw [hmap, F64.listSum_num]
    congr 1
    rw [List.sum_replicate]
    simp

/-- Witness for C10: a concrete two-channel fresh observer. -/
theorem fresh_scalar_observer_unit_weights_witness :
    (DsfbObserver.new (DsfbParams.new (F64.num (1/2)) (F64.num (1/10))
        (F64.num (1/100)) (F64.num (19/20)) (F64.num (1/10))) 2).trust_weight
      0 = F64.num 1 ∧
    F64.listSum ((List.range 2).map fun k =>
      (DsfbObserver.new (DsfbParams.new (F64.num (1/2)) (F64.num (1/10))
        (F64.num (1/100)) (F64.num (19/20)) (F64.num (1/10))) 2).trust_weight
        k) = F64.num ((2 : ℕ) : ℚ) :=
  ⟨((fresh_scalar_observer_unit_weights (DsfbParams.new (F64.num (1/2))
      (F64.num (1/10)) (F64.num (1/100)) (F64.num (19/20))
      (F64.num (1/10))) 2).1 0 (by norm_num)).1,
   (fresh_scalar_observer_unit_weights (DsfbParams.new (F64.num (1/2))
      (F64.num (1/10)) (F64.num (1/100)) (F64.num (19/20))
      (F64.num (1/10))) 2).2⟩
